import Mathlib

set_option maxHeartbeats 1000000
set_option maxRecDepth 8000

/-!  Verification of the cross-process shared-memory layer of the `gravatar`
service (`src/app/shared_memory/*.py`).  Shared-memory segments are modelled
as byte-addressed memories; the primitive accessors mirror `shm_main.py`,
the ring-buffer, counter, blob and roster stores mirror the per-store
modules, and Python strings are lists of Unicode code points with an
explicit UTF-8 encoder and a strict decoder with ignore-errors semantics. -/

namespace Gravatar

/-- A shared-memory buffer: one byte value per address.  Addresses are `Int`
because Python integer offsets are unbounded; segments are zero-filled on
creation. -/
abbrev Buf : Type := Int → Nat

/-- A freshly created shared-memory segment (zero-filled by the OS). -/
def freshBuf : Buf := fun _ => 0

/-- Byte `j` of the 4-byte little-endian two-complement encoding of `v`,
as stored by `struct.pack_into("i", buf, off, v)`. -/
def encIntByte (v : Int) (j : Nat) : Nat := ((v % 2 ^ 32).toNat / 256 ^ j) % 256

/-- Model of `shm_write_int` (shm_main.py line 116): write a 4-byte little-endian
signed integer at offset `off`. -/
def shm_write_int (buf : Buf) (off : Int) (v : Int) : Buf :=
  fun i => if off ≤ i ∧ i < off + 4 then encIntByte v (i - off).toNat else buf i

/-- Model of `shm_read_int` (shm_main.py line 127): read a 4-byte little-endian
signed integer at offset `off`. -/
def shm_read_int (buf : Buf) (off : Int) : Int :=
  let n : Nat := buf off + 256 * buf (off + 1) + 256 ^ 2 * buf (off + 2) + 256 ^ 3 * buf (off + 3)
  if n < 2 ^ 31 then (n : Int) else (n : Int) - 2 ^ 32

/-- Model of `shm_write_bytes` (shm_main.py line 160): write `data` at offsets
`[off, off + data.length)`. -/
def shm_write_bytes (buf : Buf) (off : Int) (data : List Nat) : Buf :=
  fun i => if off ≤ i ∧ i < off + data.length then data.getD (i - off).toNat 0 else buf i

/-- Model of `shm_read_bytes` (shm_main.py line 171): read `size` bytes starting at
offset `off`. -/
def shm_read_bytes (buf : Buf) (off : Int) (size : Nat) : List Nat :=
  (List.range size).map fun (j : Nat) => buf (off + (j : Int))

/-! ## Python strings and UTF-8

A Python string is a list of Unicode code points.  `str.encode("utf-8")`
succeeds exactly on scalar values (no surrogates), and
`bytes.decode("utf-8", "ignore")` drops malformed byte sequences. -/

/-- A Unicode scalar value: encodable by the Python UTF-8 codec. -/
def ValidChar (c : Nat) : Prop := c < 0x110000 ∧ (c < 0xD800 ∨ 0xE000 ≤ c)

/-- All code points of the string are scalar values. -/
def ValidStr (s : List Nat) : Prop := ∀ c ∈ s, ValidChar c

instance (c : Nat) : Decidable (ValidChar c) := by unfold ValidChar; infer_instance

instance (s : List Nat) : Decidable (ValidStr s) := by unfold ValidStr; infer_instance

/-- UTF-8 encoding of one scalar value. -/
def utf8EncodeChar (c : Nat) : List Nat :=
  if c < 0x80 then [c]
  else if c < 0x800 then [0xC0 + c / 64, 0x80 + c % 64]
  else if c < 0x10000 then [0xE0 + c / 4096, 0x80 + c / 64 % 64, 0x80 + c % 64]
  else [0xF0 + c / 262144, 0x80 + c / 4096 % 64, 0x80 + c / 64 % 64, 0x80 + c % 64]

/-- UTF-8 encoding of a string: `str.encode("utf-8")`. -/
def utf8Encode (s : List Nat) : List Nat := (s.map utf8EncodeChar).flatten

/-- Continuation-byte test (`0x80 ≤ b < 0xC0`). -/
def contB (b : Nat) : Bool := decide (0x80 ≤ b) && decide (b < 0xC0)

/-- Admissible second byte of a three-byte sequence with lead byte `b0`
(the strict ranges of the Python codec, excluding overlongs and surrogates). -/
def cont3 (b0 b1 : Nat) : Bool :=
  if b0 = 0xE0 then decide (0xA0 ≤ b1) && decide (b1 < 0xC0)
  else if b0 = 0xED then decide (0x80 ≤ b1) && decide (b1 < 0xA0)
  else contB b1

/-- Admissible second byte of a four-byte sequence with lead byte `b0`. -/
def cont4 (b0 b1 : Nat) : Bool :=
  if b0 = 0xF0 then decide (0x90 ≤ b1) && decide (b1 < 0xC0)
  else if b0 = 0xF4 then decide (0x80 ≤ b1) && decide (b1 < 0x90)
  else contB b1

/-- Model of `bytes.decode("utf-8", "ignore")`: strict UTF-8 decoding where malformed
or truncated sequences are dropped and decoding restarts at the following
byte.  The equations enumerate the remaining input length so that every
recursive call is on a structural suffix. -/
def utf8DecodeIgnore : List Nat → List Nat
  | [] => []
  | [b0] => if b0 < 0x80 then [b0] else []
  | [b0, b1] =>
    if b0 < 0x80 then b0 :: utf8DecodeIgnore [b1]
    else if b0 < 0xC2 then utf8DecodeIgnore [b1]
    else if b0 < 0xE0 then
      if contB b1 then [(b0 - 0xC0) * 64 + (b1 - 0x80)]
      else utf8DecodeIgnore [b1]
    else utf8DecodeIgnore [b1]
  | [b0, b1, b2] =>
    if b0 < 0x80 then b0 :: utf8DecodeIgnore [b1, b2]
    else if b0 < 0xC2 then utf8DecodeIgnore [b1, b2]
    else if b0 < 0xE0 then
      if contB b1 then ((b0 - 0xC0) * 64 + (b1 - 0x80)) :: utf8DecodeIgnore [b2]
      else utf8DecodeIgnore [b1, b2]
    else if b0 < 0xF0 then
      if cont3 b0 b1 && contB b2 then [(b0 - 0xE0) * 4096 + (b1 - 0x80) * 64 + (b2 - 0x80)]
      else utf8DecodeIgnore [b1, b2]
    else utf8DecodeIgnore [b1, b2]
  | b0 :: b1 :: b2 :: b3 :: rest =>
    if b0 < 0x80 then b0 :: utf8DecodeIgnore (b1 :: b2 :: b3 :: rest)
    else if b0 < 0xC2 then utf8DecodeIgnore (b1 :: b2 :: b3 :: rest)
    else if b0 < 0xE0 then
      if contB b1 then ((b0 - 0xC0) * 64 + (b1 - 0x80)) :: utf8DecodeIgnore (b2 :: b3 :: rest)
      else utf8DecodeIgnore (b1 :: b2 :: b3 :: rest)
    else if b0 < 0xF0 then
      if cont3 b0 b1 && contB b2 then
        ((b0 - 0xE0) * 4096 + (b1 - 0x80) * 64 + (b2 - 0x80)) :: utf8DecodeIgnore (b3 :: rest)
      else utf8DecodeIgnore (b1 :: b2 :: b3 :: rest)
    else if b0 < 0xF5 then
      if cont4 b0 b1 && contB b2 && contB b3 then
        ((b0 - 0xF0) * 262144 + (b1 - 0x80) * 4096 + (b2 - 0x80) * 64 + (b3 - 0x80)) ::
          utf8DecodeIgnore rest
      else utf8DecodeIgnore (b1 :: b2 :: b3 :: rest)
    else utf8DecodeIgnore (b1 :: b2 :: b3 :: rest)

/-! ## The truncation helper `_shorten_message` (shm_main.py lines 207-233) -/

/-- The scan `for idx, byte in enumerate(message_bytes): if idx >= available: break;
end = idx` of `_shorten_message`; `idx` and `e` are the loop variables. -/
def endScan (len available idx e : Nat) : Nat :=
  if idx < len then
    if available ≤ idx then e
    else endScan len available (idx + 1) idx
  else e
termination_by len - idx

/-- The loop `while end > 0 and (message_bytes[end] & 0b11000000) == 0b10000000:
end -= 1` of `_shorten_message`. -/
def backoff (mb : List Nat) : Nat → Nat
  | 0 => 0
  | e + 1 => if (mb.getD (e + 1) 0) &&& 0xC0 == 0x80 then backoff mb e else e + 1

/-- Code points of the default truncation marker `"... (truncated)"`. -/
def defaultSuffix : List Nat :=
  [46, 46, 46, 32, 40, 116, 114, 117, 110, 99, 97, 116, 101, 100, 41]

/-- Model of `_shorten_message` (shm_main.py): truncate `message` so that the UTF-8
encoding of the result together with `suffix` fits in `max_len` bytes; the
byte scan backs up over continuation bytes so it never splits a multi-byte
code point.  When the encoded suffix alone does not fit (`available <= 0` in
the source), Python returns the character slice `suffix[:max_len]`. -/
def _shorten_message (message : List Nat) (max_len : Nat) (suffix : List Nat) : List Nat :=
  if (utf8Encode message).length ≤ max_len then message
  else if (max_len : Int) - (utf8Encode suffix).length ≤ 0 then suffix.take max_len
  else
    utf8DecodeIgnore ((utf8Encode message).take
      (backoff (utf8Encode message)
        (endScan (utf8Encode message).length (max_len - (utf8Encode suffix).length) 0 0))) ++
      suffix

/-! ## Record packing (shm_logs.py, shm_auth.py)

`ENTRY_STRUCT.pack` of consecutive `"Ns"` fields is plain concatenation,
since every field is first sliced and space-padded to exactly its width. -/

/-- One iteration of the per-field loop of `_pack_log_entry` /
`_pack_attempt_entry`: `data = value.encode("utf-8")[:width]` followed by
right-padding with spaces (0x20) to exactly `width` bytes. -/
def padField (width : Nat) (value : List Nat) : List Nat :=
  (utf8Encode value).take width ++
    List.replicate (width - ((utf8Encode value).take width).length) 32

/-- A log record (the `log_entry` dict): the eight fields of
`SHARED_MEMORY_CONFIG["logs"]["ENTRY_ORDER"]`, each a Python string. -/
structure LogEntry where
  asctime : List Nat
  msecs : List Nat
  module : List Nat
  funcName : List Nat
  process : List Nat
  session_id : List Nat
  levelname : List Nat
  message : List Nat

/-- Model of `_pack_log_entry` (shm_logs.py lines 55-71): field widths
19/3/20/25/5/4/3/1300; only the `message` field goes through
`_shorten_message` (with the default marker) before the byte slice. -/
def _pack_log_entry (e : LogEntry) : List Nat :=
  padField 19 e.asctime ++ padField 3 e.msecs ++ padField 20 e.module ++
    padField 25 e.funcName ++ padField 5 e.process ++ padField 4 e.session_id ++
    padField 3 e.levelname ++
    padField 1300 ( _shorten_message e.message 1300 defaultSuffix)

/-- Model of `entry.rstrip(" ")` applied after decoding a fixed-width field. -/
def rstripSpaces (s : List Nat) : List Nat := (s.reverse.dropWhile (· == 32)).reverse

/-- Decoding of one fixed-width field during a ring read:
`.decode("utf-8", "ignore").rstrip(" ")`. -/
def decodeField (bs : List Nat) : List Nat := rstripSpaces (utf8DecodeIgnore bs)

/-- The per-slot decoding step of `get_logs_from_shm` (lines 140-146):
`ENTRY_STRUCT.unpack` splits the 1379 packed bytes at the field widths and
every field is decoded with `decodeField`. -/
def _unpack_log_entry (packed : List Nat) : LogEntry where
  asctime := decodeField (packed.take 19)
  msecs := decodeField ((packed.drop 19).take 3)
  module := decodeField ((packed.drop 22).take 20)
  funcName := decodeField ((packed.drop 42).take 25)
  process := decodeField ((packed.drop 67).take 5)
  session_id := decodeField ((packed.drop 72).take 4)
  levelname := decodeField ((packed.drop 76).take 3)
  message := decodeField ((packed.drop 79).take 1300)

/-- Decimal digit string of a natural number, as produced by Python `str`. -/
def natStr (n : Nat) : List Nat :=
  if h : n < 10 then [48 + n] else natStr (n / 10) ++ [48 + n % 10]

/-- Python `str` of an integer. -/
def intStr (v : Int) : List Nat :=
  if v < 0 then 45 :: natStr (-v).toNat else natStr v.toNat

/-- Model of `_pack_attempt_entry` (shm_auth.py lines 54-85): field widths
39/16/64/1/16; only `username` goes through `_shorten_message`, with an empty
suffix; `success` is the single character "1" or "0". -/
def _pack_attempt_entry (client_ip : List Nat) (timestamp : Int) (username : List Nat)
    (success : Bool) (unlock_time : Int) : List Nat :=
  padField 39 client_ip ++ padField 16 (intStr timestamp) ++
    padField 64 ( _shorten_message username 64 []) ++
    padField 1 (if success then [49] else [48]) ++ padField 16 (intStr unlock_time)

/-- Whether `c` is an ASCII decimal digit. -/
def isDigit (c : Nat) : Bool := decide (48 ≤ c) && decide (c ≤ 57)

/-- Value of a non-empty all-digit string, else `none`. -/
def digitsVal (ds : List Nat) : Option Nat :=
  if ds ≠ [] ∧ ds.all isDigit then
    some (ds.foldl (fun acc c => acc * 10 + (c - 48)) 0)
  else none

/-- Python `int(s)` on a decoded text field: optional surrounding spaces,
an optional sign, then decimal digits; any other input raises `ValueError`,
modelled as `none`. -/
def pyInt (s : List Nat) : Option Int :=
  match (((s.dropWhile (· == 32)).reverse.dropWhile (· == 32)).reverse : List Nat) with
  | 45 :: ds => (digitsVal ds).map fun n => -(n : Int)
  | 43 :: ds => (digitsVal ds).map fun n => (n : Int)
  | ds => (digitsVal ds).map fun n => (n : Int)

/-- One decoded login attempt (the dict built by `get_auth_attempts_from_shm`):
all fields are decoded strings except `timestamp`, which is converted with
`int(...)` and falls back to `0` on failure. -/
structure AuthAttempt where
  ip : List Nat
  timestamp : Int
  username : List Nat
  success : List Nat
  unlock_time : List Nat

/-- The per-slot decoding step of `get_auth_attempts_from_shm`
(lines 156-164): field widths 39/16/64/1/16, then
`attempt["timestamp"] = int(attempt["timestamp"])` with fallback `0`. -/
def _unpack_attempt_entry (packed : List Nat) : AuthAttempt where
  ip := decodeField (packed.take 39)
  timestamp := (pyInt (decodeField ((packed.drop 39).take 16))).getD 0
  username := decodeField ((packed.drop 55).take 64)
  success := decodeField ((packed.drop 119).take 1)
  unlock_time := decodeField ((packed.drop 120).take 16)

/-! ## The generic ring buffer (shm_logs.py and shm_auth.py share this shape) -/

/-- The ring-buffer constants of one store, from `SHARED_MEMORY_CONFIG`
(config/constants.py): header 8 bytes (count:u32 at 0, next index:u32 at 4),
4-byte per-slot size header, `ENTRY_SIZE` packed bytes per slot,
`MAX_BUFFER_SIZE` slots. -/
structure RingConf where
  headerSize : Nat
  entryHeaderSize : Nat
  entrySize : Nat
  capacity : Nat

/-- Model of `SHARED_MEMORY_CONFIG["logs"]`: entry size 19+3+20+25+5+4+3+1300 = 1379,
capacity 1000. -/
def logsRingConf : RingConf := ⟨8, 4, 1379, 1000⟩

/-- Model of `SHARED_MEMORY_CONFIG["auth"]`: entry size 39+16+64+1+16 = 136,
capacity 1000. -/
def authRingConf : RingConf := ⟨8, 4, 136, 1000⟩

/-- Model of `entry_full_size = ENTRY_HEADER_SIZE + ENTRY_SIZE`. -/
def RingConf.entryFullSize (c : RingConf) : Nat := c.entryHeaderSize + c.entrySize

/-- The locked body shared by `add_log_to_shm` (shm_logs.py lines 87-99) and
`add_auth_attempt_to_shm` (shm_auth.py lines 106-116): read `count` and
`next_idx`, write the slot size header and the packed record at
`HEADER_SIZE + next_idx * entry_full_size`, then advance
`next_idx = (next_idx + 1) % MAX_BUFFER_SIZE` and
`count = min(count + 1, MAX_BUFFER_SIZE)`. -/
def ringAppend (c : RingConf) (buf : Buf) (packed : List Nat) : Buf :=
  shm_write_int
    (shm_write_int
      (shm_write_bytes
        (shm_write_int buf
          ((c.headerSize : Int) + shm_read_int buf 4 * (c.entryFullSize : Int))
          (c.entrySize : Int))
        ((c.headerSize : Int) + shm_read_int buf 4 * (c.entryFullSize : Int) +
          (c.entryHeaderSize : Int))
        packed)
      0 (min (shm_read_int buf 0 + 1) (c.capacity : Int)))
    4 ((shm_read_int buf 4 + 1) % (c.capacity : Int))

/-- The locked body shared by `get_logs_from_shm` (shm_logs.py lines 119-147)
and `get_auth_attempts_from_shm` (shm_auth.py lines 135-165), before
per-record decoding: read `num = min(count, limit)` slots starting at
`(next_idx - num) % MAX_BUFFER_SIZE`, oldest first, skipping (`continue`)
any slot whose stored size differs from `ENTRY_SIZE`. -/
def ringRead (c : RingConf) (buf : Buf) (limit : Int) : List (List Nat) :=
  if min (shm_read_int buf 0) limit = 0 then []
  else
    (List.range (min (shm_read_int buf 0) limit).toNat).filterMap fun (i : Nat) =>
      if shm_read_int buf ((c.headerSize : Int) +
          ((shm_read_int buf 4 - min (shm_read_int buf 0) limit) % (c.capacity : Int) +
              (i : Int)) % (c.capacity : Int) * (c.entryFullSize : Int)) =
          (c.entrySize : Int) then
        some (shm_read_bytes buf ((c.headerSize : Int) +
          ((shm_read_int buf 4 - min (shm_read_int buf 0) limit) % (c.capacity : Int) +
              (i : Int)) % (c.capacity : Int) * (c.entryFullSize : Int) +
          (c.entryHeaderSize : Int)) c.entrySize)
      else none

/-! ## The logs counter (shm_logs_counter.py) -/

/-- Model of `inc_logs_counter` (shm_logs_counter.py lines 41-64): read the 4-byte
counter, store `(value + 1) % MAX_VALUE` with `MAX_VALUE = 2000000000`.
The success path of the Python function has no `return` statement, so the
caller receives `None`: the second component. -/
def inc_logs_counter (buf : Buf) : Buf × Option Int :=
  (shm_write_int buf 0 ((shm_read_int buf 0 + 1) % 2000000000), none)

/-- Model of `get_logs_counter` (shm_logs_counter.py lines 67-91). -/
def get_logs_counter (buf : Buf) : Int := shm_read_int buf 0

/-- Iterated counter increments starting from a given segment state. -/
def incN : Nat → Buf → Buf
  | 0, buf => buf
  | n + 1, buf => (inc_logs_counter (incN n buf)).1

/-! ## The named store operations -/

/-- Model of `add_log_to_shm` (shm_logs.py lines 74-104).  The state is the pair
(logs ring segment, logs-counter segment): the function increments the
counter first and then appends the packed record, under one lock. -/
def add_log_to_shm (st : Buf × Buf) (e : LogEntry) : Buf × Buf :=
  (ringAppend logsRingConf st.1 ( _pack_log_entry e), (inc_logs_counter st.2).1)

/-- Model of `get_logs_from_shm` (shm_logs.py lines 107-154); the Python default for
`limit` is 1000. -/
def get_logs_from_shm (buf : Buf) (limit : Int) : List LogEntry :=
  (ringRead logsRingConf buf limit).map _unpack_log_entry

/-- Model of `add_auth_attempt_to_shm` (shm_auth.py lines 88-121). -/
def add_auth_attempt_to_shm (buf : Buf) (client_ip : List Nat) (username : List Nat)
    (timestamp : Int) (success : Bool) (unlock_time : Int) : Buf :=
  ringAppend authRingConf buf ( _pack_attempt_entry client_ip timestamp username success unlock_time)

/-- Model of `get_auth_attempts_from_shm` (shm_auth.py lines 124-174): reads up to
`MAX_BUFFER_SIZE = 1000` records; `if since_time:` keeps records with
`timestamp >= since_time` when `since_time` is non-zero (truthy). -/
def get_auth_attempts_from_shm (buf : Buf) (since_time : Int) : List AuthAttempt :=
  if since_time ≠ 0 then
    ((ringRead authRingConf buf 1000).map _unpack_attempt_entry).filter fun a =>
      since_time ≤ a.timestamp
  else (ringRead authRingConf buf 1000).map _unpack_attempt_entry

/-- The arguments of one `add_auth_attempt_to_shm` call. -/
structure AuthEvent where
  client_ip : List Nat
  timestamp : Int
  username : List Nat
  success : Bool
  unlock_time : Int

/-- Model of `_pack_attempt_entry` on an argument record. -/
def packAuthEvent (a : AuthEvent) : List Nat :=
  _pack_attempt_entry a.client_ip a.timestamp a.username a.success a.unlock_time

/-- Folding `add_auth_attempt_to_shm` over a list of attempts. -/
def addAuthEvent (buf : Buf) (a : AuthEvent) : Buf :=
  add_auth_attempt_to_shm buf a.client_ip a.username a.timestamp a.success a.unlock_time

/-! ## The settings blob (shm_settings.py)

Layout (config/constants.py): `mtime` as a 4-byte int at offset 0, payload
length as a 4-byte int at offset 8, `HEADER_SIZE = 16`, capacity
`SIZE = 65536` payload bytes.  The JSON codec is abstracted: a write takes
the already-encoded payload bytes, a read takes the `json.loads` oracle as
the parameter `jsonLoads` (`none` models a raised decode error). -/

/-- Model of `write_settings_to_shm` (shm_settings.py lines 46-71) after JSON
encoding.  An over-capacity payload is only logged
(`logger.error(...)`; then a plain `return`), so the caller receives a
normal `None` return: `Except.ok ()` in both the rejected and the
successful case. -/
def write_settings_to_shm (buf : Buf) (mtime : Int) (data_bytes : List Nat) :
    Buf × Except String Unit :=
  if data_bytes.length > 65536 then (buf, Except.ok ())
  else
    (shm_write_bytes (shm_write_int (shm_write_int buf 0 mtime) 8 (data_bytes.length : Int))
      16 data_bytes, Except.ok ())

/-- Model of `read_settings_from_shm` (shm_settings.py lines 74-102): read `mtime`
and `size`; a size outside `(0, 65536]` returns the `(mtime, {})` fallback;
otherwise the payload is read and decoded.  When `json.loads` raises, the
inner handler only logs, the local `data` stays unbound, and the final
`return mtime, data` raises `NameError`, which the outer handler re-raises:
`Except.error ()`. -/
def read_settings_from_shm {J : Type} (emptyJ : J) (jsonLoads : List Nat → Option J)
    (buf : Buf) : Except Unit (Int × J) :=
  if shm_read_int buf 8 > 65536 ∨ shm_read_int buf 8 ≤ 0 then
    Except.ok (shm_read_int buf 0, emptyJ)
  else
    match jsonLoads (shm_read_bytes buf 16 (shm_read_int buf 8).toNat) with
    | some data => Except.ok (shm_read_int buf 0, data)
    | none => Except.error ()

/-! ## Segment lifecycle (shm_main.py lines 26-113)

The OS segment table and the per-attempt outcomes (lock timeout, corruption,
other error) are explicit inputs; `multiprocessing.shared_memory` calls are
modelled through them. -/

/-- The shared-memory objects currently registered with the OS: each
existing segment name maps to its size in bytes. -/
def OsState : Type := String → Option Nat

/-- A process-local handle to a shared-memory segment. -/
structure ShmHandle where
  name : String
  size : Nat
  closed : Bool

/-- Outcome of one iteration of the retry loop of `shm_initialize_model`:
the attach/create attempt runs (`ok`), the init file lock times out
(`lockTimeout`, the `filelock.Timeout` branch), attaching raises
`ValueError` (`corrupted`), or some other exception is raised
(`otherError`). -/
inductive InitEvent
  | ok
  | lockTimeout
  | corrupted
  | otherError
deriving DecidableEq

/-- Remove a segment name from the OS table (`shm.unlink()` semantics on the
table). -/
def osRemove (os : OsState) (name : String) : OsState :=
  fun n => if n = name then none else os n

/-- The retry loop of `shm_initialize` (shm_main.py lines 41-82), one
`InitEvent` per iteration: on `ok`, attach if the segment exists
(`is_creator = false`); else if `create` is false return the
`(None, False)` sentinel; else create a segment of exactly `size` bytes
(`is_creator = true`).  On `lockTimeout` and `otherError`, sleep and retry.
On `corrupted`, unlink the stale object and retry. -/
def shmInitLoop (name : String) (size : Nat) (create : Bool) :
    OsState → List InitEvent → OsState × Option ShmHandle × Bool
  | os, [] => (os, none, false)
  | os, e :: rest =>
    match e with
    | InitEvent.ok =>
      match os name with
      | some sz => (os, some ⟨name, sz, false⟩, false)
      | none =>
        if create then
          ((fun n => if n = name then some size else os n), some ⟨name, size, false⟩, true)
        else (os, none, false)
    | InitEvent.lockTimeout => shmInitLoop name size create os rest
    | InitEvent.corrupted => shmInitLoop name size create (osRemove os name) rest
    | InitEvent.otherError => shmInitLoop name size create os rest

/-- Model of `shm_initialize` (shm_main.py lines 26-88): the loop `for i in range(5)`
runs at most five attempts; exhausting them returns the `(None, False)`
sentinel instead of raising. -/
def shm_initialize_model (name : String) (size : Nat) (create : Bool)
    (os : OsState) (events : List InitEvent) : OsState × Option ShmHandle × Bool :=
  shmInitLoop name size create os (events.take 5)

/-- Model of `shm.unlink()` against the OS table: removing an absent segment raises
`FileNotFoundError`. -/
def osUnlink (os : OsState) (name : String) : Except String OsState :=
  match os name with
  | some _ => Except.ok (osRemove os name)
  | none => Except.error "FileNotFoundError"

/-- Model of `shm_cleanup` (shm_main.py lines 91-113): every caller closes its own
mapping; only a creator attempts `unlink`, and the inner and outer handlers
absorb every exception (they only log), so the function itself never
raises. -/
def shm_cleanup (os : OsState) (h : ShmHandle) (is_creator : Bool) :
    Except String (OsState × ShmHandle) :=
  if is_creator then
    match osUnlink os h.name with
    | Except.ok os2 => Except.ok (os2, ⟨h.name, h.size, true⟩)
    | Except.error _ => Except.ok (os, ⟨h.name, h.size, true⟩)
  else Except.ok (os, ⟨h.name, h.size, true⟩)

/-! ## The PID roster and leader election (shm_pids.py) -/

/-- Python `min(list)` for a non-empty list (`min(all_pids)` in
`log_pids`); the `[]` case is unreachable behind the truthiness guard. -/
def pyMin : List Int → Int
  | [] => 0
  | p :: rest => rest.foldl min p

/-- The leader test of `log_pids` (shm_pids.py line 113):
`is_leader = bool(all_pids and my_pid == min(all_pids))`. -/
def elect_leader (all_pids : List Int) (my_pid : Int) : Bool :=
  match all_pids with
  | [] => false
  | p :: rest => my_pid == pyMin (p :: rest)

/-! ## Ring-buffer invariant -/

/-- Convenient byte offset of ring slot `j`. -/
def slotOffset (c : RingConf) (j : Nat) : Int :=
  (c.headerSize : Int) + (j : Int) * (c.entryFullSize : Int)

/-- The index of the append that last wrote ring slot `j`, among the first
`m` appends. -/
def lastWriter (m cap j : Nat) : Nat := m - 1 - (m - 1 - j) % cap

/-- The shape shared by the two ring stores: 8-byte header, 4-byte slot
size header, positive capacity, and sizes representable in an `i32`. -/
def GoodConf (c : RingConf) : Prop :=
  c.headerSize = 8 ∧ c.entryHeaderSize = 4 ∧ 0 < c.capacity ∧
    (c.capacity : Int) < 2 ^ 31 ∧ (c.entrySize : Int) < 2 ^ 31

/-- State of a ring segment after the packed records `packs` have been
appended, oldest first, starting from a fresh segment. -/
def RingInv (c : RingConf) (buf : Buf) (packs : List (List Nat)) : Prop :=
  shm_read_int buf 0 = ((min packs.length c.capacity : Nat) : Int) ∧
    shm_read_int buf 4 = ((packs.length % c.capacity : Nat) : Int) ∧
    ∀ j : Nat, j < min packs.length c.capacity →
      shm_read_int buf (slotOffset c j) = (c.entrySize : Int) ∧
        shm_read_bytes buf (slotOffset c j + (c.entryHeaderSize : Int)) c.entrySize =
          packs.getD (lastWriter packs.length c.capacity j) []

/-- All packed records appended so far, oldest first, starting from a fresh
segment. -/
def appendAll (c : RingConf) (packs : List (List Nat)) : Buf :=
  packs.foldl (ringAppend c) freshBuf

/-! ## The claims -/

/-- A log-record value used as the concrete input of witnesses. -/
def emptyLogEntry : LogEntry := ⟨[], [], [], [], [], [], [], []⟩

/-- An auth-attempt argument record used as the concrete input of witnesses. -/
def emptyAuthEvent : AuthEvent := ⟨[], 0, [], false, 0⟩

/-- The log record whose `module` field has a two-byte code point crossing
the 20-byte field boundary: the letter a followed by ten é (U+00E9). -/
def c7Entry : LogEntry := ⟨[], [], 97 :: List.replicate 10 233, [], [], [], [], []⟩

/-! ## Theorems -/

theorem encIntByte_recombine (v : Int) (h0 : 0 ≤ v) (h1 : v < 2 ^ 32) :
    encIntByte v 0 + 256 * encIntByte v 1 + 256 ^ 2 * encIntByte v 2 +
      256 ^ 3 * encIntByte v 3 = v.toNat := by
  unfold encIntByte
  rw [Int.emod_eq_of_lt h0 h1]
  omega

theorem shm_write_int_apply_ne (buf : Buf) (off v i : Int)
    (h : i < off ∨ off + 4 ≤ i) : shm_write_int buf off v i = buf i := by
  simp only [shm_write_int]
  rw [if_neg (by omega)]

theorem shm_write_bytes_apply_ne (buf : Buf) (off : Int) (data : List Nat) (i : Int)
    (h : i < off ∨ off + data.length ≤ i) : shm_write_bytes buf off data i = buf i := by
  simp only [shm_write_bytes]
  rw [if_neg (by omega)]

theorem shm_read_int_congr (buf buf' : Buf) (off : Int)
    (h : ∀ i, off ≤ i → i < off + 4 → buf i = buf' i) :
    shm_read_int buf off = shm_read_int buf' off := by
  simp only [shm_read_int, h off (by omega) (by omega), h (off + 1) (by omega) (by omega),
    h (off + 2) (by omega) (by omega), h (off + 3) (by omega) (by omega)]

theorem shm_read_bytes_congr (buf buf' : Buf) (off : Int) (size : Nat)
    (h : ∀ i, off ≤ i → i < off + size → buf i = buf' i) :
    shm_read_bytes buf off size = shm_read_bytes buf' off size := by
  simp only [shm_read_bytes]
  apply List.map_congr_left
  intro j hj
  have hj' : j < size := List.mem_range.mp hj
  exact h (off + (j : Int)) (by omega) (by omega)

theorem shm_read_int_write_int_self (buf : Buf) (off v : Int) (h0 : 0 ≤ v)
    (h1 : v < 2 ^ 31) : shm_read_int (shm_write_int buf off v) off = v := by
  have e0 : shm_write_int buf off v off = encIntByte v 0 := by
    simp only [shm_write_int]
    rw [if_pos (by omega)]
    congr 1
    omega
  have e1 : shm_write_int buf off v (off + 1) = encIntByte v 1 := by
    simp only [shm_write_int]
    rw [if_pos (by omega)]
    congr 1
    omega
  have e2 : shm_write_int buf off v (off + 2) = encIntByte v 2 := by
    simp only [shm_write_int]
    rw [if_pos (by omega)]
    congr 1
    omega
  have e3 : shm_write_int buf off v (off + 3) = encIntByte v 3 := by
    simp only [shm_write_int]
    rw [if_pos (by omega)]
    congr 1
    omega
  have hrec := encIntByte_recombine v h0 (by omega)
  simp only [shm_read_int, e0, e1, e2, e3]
  rw [if_pos (by omega)]
  omega

theorem shm_read_int_write_int_sep (buf : Buf) (off off' v : Int)
    (h : off' + 4 ≤ off ∨ off + 4 ≤ off') :
    shm_read_int (shm_write_int buf off v) off' = shm_read_int buf off' := by
  apply shm_read_int_congr
  intro i h1 h2
  exact shm_write_int_apply_ne buf off v i (by omega)

theorem shm_read_int_write_bytes_sep (buf : Buf) (off off' : Int) (data : List Nat)
    (h : off' + 4 ≤ off ∨ off + data.length ≤ off') :
    shm_read_int (shm_write_bytes buf off data) off' = shm_read_int buf off' := by
  apply shm_read_int_congr
  intro i h1 h2
  exact shm_write_bytes_apply_ne buf off data i (by omega)

theorem shm_read_bytes_write_int_sep (buf : Buf) (off off' v : Int) (size : Nat)
    (h : off' + size ≤ off ∨ off + 4 ≤ off') :
    shm_read_bytes (shm_write_int buf off v) off' size = shm_read_bytes buf off' size := by
  apply shm_read_bytes_congr
  intro i h1 h2
  exact shm_write_int_apply_ne buf off v i (by omega)

theorem shm_read_bytes_write_bytes_sep (buf : Buf) (off off' : Int)
    (data : List Nat) (size : Nat)
    (h : off' + size ≤ off ∨ off + data.length ≤ off') :
    shm_read_bytes (shm_write_bytes buf off data) off' size = shm_read_bytes buf off' size := by
  apply shm_read_bytes_congr
  intro i h1 h2
  exact shm_write_bytes_apply_ne buf off data i (by omega)

theorem shm_read_bytes_write_bytes_self (buf : Buf) (off : Int) (data : List Nat) :
    shm_read_bytes (shm_write_bytes buf off data) off data.length = data := by
  apply List.ext_getElem
  · simp [shm_read_bytes]
  · intro j h1 h2
    simp only [shm_read_bytes, List.getElem_map, List.getElem_range, shm_write_bytes]
    have hj : j < data.length := by simpa [shm_read_bytes] using h1
    rw [if_pos (by omega)]
    have ht : ((off + (j : Int)) - off).toNat = j := by omega
    rw [ht]
    exact List.getD_eq_getElem data 0 hj

theorem shm_read_int_freshBuf (off : Int) : shm_read_int freshBuf off = 0 := by
  norm_num [shm_read_int, freshBuf]

theorem utf8Encode_nil : utf8Encode [] = [] := rfl

theorem utf8Encode_cons (c : Nat) (s : List Nat) :
    utf8Encode (c :: s) = utf8EncodeChar c ++ utf8Encode s := by
  simp [utf8Encode]

theorem utf8Encode_append (s t : List Nat) :
    utf8Encode (s ++ t) = utf8Encode s ++ utf8Encode t := by
  simp [utf8Encode]

theorem utf8EncodeChar_length_pos (c : Nat) : 0 < (utf8EncodeChar c).length := by
  unfold utf8EncodeChar
  split <;> try simp
  split <;> try simp
  split <;> simp

theorem length_le_utf8Encode_length (s : List Nat) : s.length ≤ (utf8Encode s).length := by
  induction s with
  | nil => simp [utf8Encode]
  | cons c s ih =>
    rw [utf8Encode_cons, List.length_append, List.length_cons]
    have := utf8EncodeChar_length_pos c
    omega

theorem utf8DecodeIgnore_cons_ascii (b0 : Nat) (rest : List Nat) (h : b0 < 0x80) :
    utf8DecodeIgnore (b0 :: rest) = b0 :: utf8DecodeIgnore rest := by
  match rest with
  | [] => simp [utf8DecodeIgnore, h]
  | [b1] => simp [utf8DecodeIgnore, h]
  | [b1, b2] => simp [utf8DecodeIgnore, h]
  | b1 :: b2 :: b3 :: r => simp [utf8DecodeIgnore, h]

theorem utf8DecodeIgnore_cons2 (b0 b1 : Nat) (rest : List Nat)
    (h0 : 0xC2 ≤ b0) (h1 : b0 < 0xE0) (hc : contB b1 = true) :
    utf8DecodeIgnore (b0 :: b1 :: rest) =
      ((b0 - 0xC0) * 64 + (b1 - 0x80)) :: utf8DecodeIgnore rest := by
  have hna : ¬ b0 < 0x80 := by omega
  have hnb : ¬ b0 < 0xC2 := by omega
  match rest with
  | [] => simp [utf8DecodeIgnore, hna, hnb, h1, hc]
  | [b2] => simp [utf8DecodeIgnore, hna, hnb, h1, hc]
  | b2 :: b3 :: r => simp [utf8DecodeIgnore, hna, hnb, h1, hc]

theorem utf8DecodeIgnore_cons3 (b0 b1 b2 : Nat) (rest : List Nat)
    (h0 : 0xE0 ≤ b0) (h1 : b0 < 0xF0) (hc1 : cont3 b0 b1 = true) (hc2 : contB b2 = true) :
    utf8DecodeIgnore (b0 :: b1 :: b2 :: rest) =
      ((b0 - 0xE0) * 4096 + (b1 - 0x80) * 64 + (b2 - 0x80)) :: utf8DecodeIgnore rest := by
  have hna : ¬ b0 < 0x80 := by omega
  have hnb : ¬ b0 < 0xC2 := by omega
  have hnc : ¬ b0 < 0xE0 := by omega
  match rest with
  | [] => simp [utf8DecodeIgnore, hna, hnb, hnc, h1, hc1, hc2]
  | b3 :: r => simp [utf8DecodeIgnore, hna, hnb, hnc, h1, hc1, hc2]

theorem utf8DecodeIgnore_cons4 (b0 b1 b2 b3 : Nat) (rest : List Nat)
    (h0 : 0xF0 ≤ b0) (h1 : b0 < 0xF5) (hc1 : cont4 b0 b1 = true)
    (hc2 : contB b2 = true) (hc3 : contB b3 = true) :
    utf8DecodeIgnore (b0 :: b1 :: b2 :: b3 :: rest) =
      ((b0 - 0xF0) * 262144 + (b1 - 0x80) * 4096 + (b2 - 0x80) * 64 + (b3 - 0x80)) ::
        utf8DecodeIgnore rest := by
  have hna : ¬ b0 < 0x80 := by omega
  have hnb : ¬ b0 < 0xC2 := by omega
  have hnc : ¬ b0 < 0xE0 := by omega
  have hnd : ¬ b0 < 0xF0 := by omega
  simp [utf8DecodeIgnore, hna, hnb, hnc, hnd, h1, hc1, hc2, hc3]

theorem utf8DecodeIgnore_encodeChar (c : Nat) (hc : ValidChar c) (bs : List Nat) :
    utf8DecodeIgnore (utf8EncodeChar c ++ bs) = c :: utf8DecodeIgnore bs := by
  obtain ⟨hlt, hsur⟩ := hc
  by_cases hA : c < 0x80
  · rw [show utf8EncodeChar c = [c] from by simp [utf8EncodeChar, hA]]
    rw [List.cons_append, List.nil_append]
    exact utf8DecodeIgnore_cons_ascii c bs hA
  · by_cases hB : c < 0x800
    · rw [show utf8EncodeChar c = [0xC0 + c / 64, 0x80 + c % 64] from by
        simp [utf8EncodeChar, hA, hB]]
      rw [List.cons_append, List.cons_append, List.nil_append]
      rw [utf8DecodeIgnore_cons2 _ _ _ (by omega) (by omega)
        (by simp only [contB, Bool.and_eq_true, decide_eq_true_eq]; omega)]
      congr 1
      omega
    · by_cases hC : c < 0x10000
      · have hcont : cont3 (0xE0 + c / 4096) (0x80 + c / 64 % 64) = true := by
          unfold cont3
          split
          · rename_i he
            simp only [Bool.and_eq_true, decide_eq_true_eq]
            omega
          · split
            · rename_i hne he
              simp only [Bool.and_eq_true, decide_eq_true_eq]
              omega
            · simp only [contB, Bool.and_eq_true, decide_eq_true_eq]
              omega
        rw [show utf8EncodeChar c = [0xE0 + c / 4096, 0x80 + c / 64 % 64, 0x80 + c % 64] from by
          simp [utf8EncodeChar, hA, hB, hC]]
        rw [List.cons_append, List.cons_append, List.cons_append, List.nil_append]
        rw [utf8DecodeIgnore_cons3 _ _ _ _ (by omega) (by omega) hcont
          (by simp only [contB, Bool.and_eq_true, decide_eq_true_eq]; omega)]
        congr 1
        omega
      · have hcont : cont4 (0xF0 + c / 262144) (0x80 + c / 4096 % 64) = true := by
          unfold cont4
          split
          · rename_i he
            simp only [Bool.and_eq_true, decide_eq_true_eq]
            omega
          · split
            · rename_i hne he
              simp only [Bool.and_eq_true, decide_eq_true_eq]
              omega
            · simp only [contB, Bool.and_eq_true, decide_eq_true_eq]
              omega
        rw [show utf8EncodeChar c =
            [0xF0 + c / 262144, 0x80 + c / 4096 % 64, 0x80 + c / 64 % 64, 0x80 + c % 64] from by
          simp [utf8EncodeChar, hA, hB, hC]]
        rw [List.cons_append, List.cons_append, List.cons_append, List.cons_append,
          List.nil_append]
        rw [utf8DecodeIgnore_cons4 _ _ _ _ _ (by omega) (by omega) hcont
          (by simp only [contB, Bool.and_eq_true, decide_eq_true_eq]; omega)
          (by simp only [contB, Bool.and_eq_true, decide_eq_true_eq]; omega)]
        congr 1
        omega

theorem utf8DecodeIgnore_encode (s : List Nat) (hs : ValidStr s) :
    utf8DecodeIgnore (utf8Encode s) = s := by
  induction s with
  | nil => rfl
  | cons c s ih =>
    rw [utf8Encode_cons, utf8DecodeIgnore_encodeChar c (hs c (by simp)),
      ih (fun x hx => hs x (by simp [hx]))]

theorem utf8EncodeChar_tail_contB (c : Nat) (j : Nat) (h0 : 0 < j)
    (h1 : j < (utf8EncodeChar c).length) : contB ((utf8EncodeChar c).getD j 0) = true := by
  by_cases hA : c < 0x80
  · rw [show utf8EncodeChar c = [c] from by simp [utf8EncodeChar, hA]] at h1
    simp at h1
    omega
  · by_cases hB : c < 0x800
    · rw [show utf8EncodeChar c = [0xC0 + c / 64, 0x80 + c % 64] from by
        simp [utf8EncodeChar, hA, hB]] at h1 ⊢
      simp at h1
      interval_cases j
      simp only [List.getD_cons_succ, List.getD_cons_zero, contB, Bool.and_eq_true,
        decide_eq_true_eq]
      omega
    · by_cases hC : c < 0x10000
      · rw [show utf8EncodeChar c = [0xE0 + c / 4096, 0x80 + c / 64 % 64, 0x80 + c % 64] from by
          simp [utf8EncodeChar, hA, hB, hC]] at h1 ⊢
        simp at h1
        interval_cases j <;>
          · simp only [List.getD_cons_succ, List.getD_cons_zero, contB, Bool.and_eq_true,
              decide_eq_true_eq]
            omega
      · rw [show utf8EncodeChar c =
            [0xF0 + c / 262144, 0x80 + c / 4096 % 64, 0x80 + c / 64 % 64, 0x80 + c % 64] from by
          simp [utf8EncodeChar, hA, hB, hC]] at h1 ⊢
        simp at h1
        interval_cases j <;>
          · simp only [List.getD_cons_succ, List.getD_cons_zero, contB, Bool.and_eq_true,
              decide_eq_true_eq]
            omega

theorem contB_eq_false_of_lo (b : Nat) (h : b < 0x80) : contB b = false := by
  simp only [contB, Bool.and_eq_false_iff, decide_eq_false_iff_not]
  omega

theorem contB_eq_false_of_hi (b : Nat) (h : 0xC0 ≤ b) : contB b = false := by
  simp only [contB, Bool.and_eq_false_iff, decide_eq_false_iff_not]
  omega

theorem utf8EncodeChar_head_not_contB (c : Nat) :
    contB ((utf8EncodeChar c).getD 0 0) = false := by
  by_cases hA : c < 0x80
  · rw [show utf8EncodeChar c = [c] from by simp [utf8EncodeChar, hA]]
    exact contB_eq_false_of_lo c hA
  · by_cases hB : c < 0x800
    · rw [show utf8EncodeChar c = [0xC0 + c / 64, 0x80 + c % 64] from by
        simp [utf8EncodeChar, hA, hB]]
      simp only [List.getD_cons_zero]
      exact contB_eq_false_of_hi _ (by omega)
    · by_cases hC : c < 0x10000
      · rw [show utf8EncodeChar c = [0xE0 + c / 4096, 0x80 + c / 64 % 64, 0x80 + c % 64] from by
          simp [utf8EncodeChar, hA, hB, hC]]
        simp only [List.getD_cons_zero]
        exact contB_eq_false_of_hi _ (by omega)
      · rw [show utf8EncodeChar c =
            [0xF0 + c / 262144, 0x80 + c / 4096 % 64, 0x80 + c / 64 % 64, 0x80 + c % 64] from by
          simp [utf8EncodeChar, hA, hB, hC]]
        simp only [List.getD_cons_zero]
        exact contB_eq_false_of_hi _ (by omega)

theorem utf8Encode_take_boundary (s : List Nat) (p : Nat)
    (hp : p ≤ (utf8Encode s).length)
    (hb : p = (utf8Encode s).length ∨ contB ((utf8Encode s).getD p 0) = false) :
    ∃ k, (utf8Encode s).take p = utf8Encode (s.take k) := by
  induction s generalizing p with
  | nil => exact ⟨0, by simp [utf8Encode]⟩
  | cons c s ih =>
    rw [utf8Encode_cons] at hp hb ⊢
    rcases Nat.lt_or_ge p (utf8EncodeChar c).length with hlt | hge
    · rcases Nat.eq_zero_or_pos p with rfl | hpos
      · exact ⟨0, by simp [utf8Encode]⟩
      · exfalso
        rcases hb with hb | hb
        · rw [List.length_append] at hb
          omega
        · rw [List.getD_append _ _ _ _ hlt, utf8EncodeChar_tail_contB c p hpos hlt] at hb
          exact absurd hb (by decide)
    · have hp' : p - (utf8EncodeChar c).length ≤ (utf8Encode s).length := by
        rw [List.length_append] at hp
        omega
      have hb' : p - (utf8EncodeChar c).length = (utf8Encode s).length ∨
          contB ((utf8Encode s).getD (p - (utf8EncodeChar c).length) 0) = false := by
        rcases hb with hb | hb
        · left
          rw [List.length_append] at hb
          omega
        · right
          rw [List.getD_append_right _ _ _ _ hge] at hb
          exact hb
      obtain ⟨k, hk⟩ := ih (p - (utf8EncodeChar c).length) hp' hb'
      refine ⟨k + 1, ?_⟩
      rw [List.take_append_eq_append_take, List.take_of_length_le (by omega), hk,
        List.take_succ_cons, utf8Encode_cons]

theorem endScan_spec_aux (len available : Nat) (h2 : available < len) :
    ∀ fuel idx, fuel = available - idx → idx < available →
      endScan len available idx (idx - 1) = available - 1 := by
  intro fuel
  induction fuel with
  | zero =>
    intro idx h1 hlt
    omega
  | succ f ih =>
    intro idx h1 hlt
    rw [endScan, if_pos (by omega), if_neg (by omega)]
    rcases Nat.lt_or_ge (idx + 1) available with h | h
    · have := ih (idx + 1) (by omega) h
      simpa using this
    · rw [endScan, if_pos (by omega), if_pos (by omega)]
      omega

theorem endScan_spec (len available : Nat) (h1 : 0 < available) (h2 : available < len) :
    endScan len available 0 0 = available - 1 :=
  endScan_spec_aux len available h2 available 0 (by omega) h1

theorem backoff_le (mb : List Nat) (e : Nat) : backoff mb e ≤ e := by
  induction e with
  | zero => simp [backoff]
  | succ n ih =>
    rw [backoff]
    split
    · omega
    · omega

theorem backoff_spec (mb : List Nat) (e : Nat) :
    backoff mb e = 0 ∨ ((mb.getD (backoff mb e) 0) &&& 0xC0 == 0x80) = false := by
  induction e with
  | zero => left; rfl
  | succ n ih =>
    rw [backoff]
    split
    · exact ih
    · right
      rename_i h
      simpa using h

theorem mask_eq_contB : ∀ b : Nat, b < 256 → ((b &&& 0xC0 == 0x80) = contB b) := by decide

theorem utf8EncodeChar_lt_256 (c : Nat) (hc : ValidChar c) : ∀ b ∈ utf8EncodeChar c, b < 256 := by
  obtain ⟨h1, h2⟩ := hc
  unfold utf8EncodeChar
  split
  · intro b hb
    simp at hb
    omega
  · split
    · intro b hb
      simp at hb
      rcases hb with rfl | rfl <;> omega
    · split
      · intro b hb
        simp at hb
        rcases hb with rfl | rfl | rfl <;> omega
      · intro b hb
        simp at hb
        rcases hb with rfl | rfl | rfl | rfl <;> omega

theorem utf8Encode_lt_256 (s : List Nat) (hs : ValidStr s) : ∀ b ∈ utf8Encode s, b < 256 := by
  intro b hb
  rw [utf8Encode] at hb
  rw [List.mem_flatten] at hb
  obtain ⟨l, hl, hbl⟩ := hb
  rw [List.mem_map] at hl
  obtain ⟨c, hc, rfl⟩ := hl
  exact utf8EncodeChar_lt_256 c (hs c hc) b hbl

theorem validStr_take (s : List Nat) (k : Nat) (hs : ValidStr s) : ValidStr (s.take k) :=
  fun c hc => hs c (List.mem_of_mem_take hc)

theorem validStr_append (s t : List Nat) (hs : ValidStr s) (ht : ValidStr t) :
    ValidStr (s ++ t) := by
  intro c hc
  rw [List.mem_append] at hc
  rcases hc with hc | hc
  · exact hs c hc
  · exact ht c hc

theorem shorten_long_fits (message suffix : List Nat) (max_len : Nat)
    (hm : ValidStr message) (hlong : max_len < (utf8Encode message).length)
    (hfit : (utf8Encode suffix).length ≤ max_len) :
    ∃ k, _shorten_message message max_len suffix = message.take k ++ suffix ∧
      (utf8Encode ( _shorten_message message max_len suffix)).length ≤ max_len := by
  unfold _shorten_message
  rw [if_neg (by omega)]
  rcases Nat.lt_or_ge (utf8Encode suffix).length max_len with hS | hS
  · rw [if_neg (by omega)]
    set available := max_len - (utf8Encode suffix).length with hav
    have havpos : 0 < available := by omega
    have havlt : available < (utf8Encode message).length := by omega
    rw [endScan_spec _ _ havpos havlt]
    set e := backoff (utf8Encode message) (available - 1) with he
    have hele : e ≤ available - 1 := backoff_le _ _
    have helt : e < (utf8Encode message).length := by omega
    have hbd : ∃ k, (utf8Encode message).take e = utf8Encode (message.take k) := by
      rcases backoff_spec (utf8Encode message) (available - 1) with h0 | hmask
      · rw [← he] at h0
        exact ⟨0, by simp [h0, utf8Encode]⟩
      · rw [← he] at hmask
        apply utf8Encode_take_boundary message e (by omega)
        right
        have hb256 : (utf8Encode message).getD e 0 < 256 := by
          rw [List.getD_eq_getElem _ _ helt]
          exact utf8Encode_lt_256 message hm _ (List.getElem_mem helt)
        rw [← mask_eq_contB _ hb256]
        exact hmask
    obtain ⟨k, hk⟩ := hbd
    refine ⟨k, ?_, ?_⟩
    · rw [hk, utf8DecodeIgnore_encode _ (validStr_take message k hm)]
    · rw [hk, utf8DecodeIgnore_encode _ (validStr_take message k hm)]
      rw [utf8Encode_append, List.length_append, ← hk, List.length_take]
      omega
  · rw [if_pos (by omega)]
    have hSize : max_len = (utf8Encode suffix).length := by omega
    have htake : suffix.take max_len = suffix := by
      apply List.take_of_length_le
      calc suffix.length ≤ (utf8Encode suffix).length := length_le_utf8Encode_length suffix
      _ ≤ max_len := by omega
    refine ⟨0, ?_, ?_⟩
    · rw [htake]
      simp
    · rw [htake]
      omega

theorem goodConf_logs : GoodConf logsRingConf := by
  refine ⟨rfl, rfl, by norm_num [logsRingConf], by norm_num [logsRingConf], by
    norm_num [logsRingConf]⟩

theorem goodConf_auth : GoodConf authRingConf := by
  refine ⟨rfl, rfl, by norm_num [authRingConf], by norm_num [authRingConf], by
    norm_num [authRingConf]⟩

theorem slotOffset_ge (c : RingConf) (hh : c.headerSize = 8) (j : Nat) :
    (8 : Int) ≤ slotOffset c j := by
  unfold slotOffset
  rw [hh]
  have : (0 : Int) ≤ (j : Int) * (c.entryFullSize : Int) :=
    mul_nonneg (by positivity) (by positivity)
  omega

theorem slotOffset_sep (c : RingConf) (j j' : Nat) (hjj : j < j') :
    slotOffset c j + (c.entryFullSize : Int) ≤ slotOffset c j' := by
  unfold slotOffset
  have hn : (j + 1) * c.entryFullSize ≤ j' * c.entryFullSize :=
    Nat.mul_le_mul_right _ hjj
  have hn2 : ((j : Int) + 1) * (c.entryFullSize : Int) ≤ (j' : Int) * (c.entryFullSize : Int) := by
    exact_mod_cast hn
  nlinarith [hn2]

theorem lastWriter_append_self (m cap : Nat) (hcap : 0 < cap) :
    lastWriter (m + 1) cap (m % cap) = m := by
  unfold lastWriter
  have hdm := Nat.div_add_mod m cap
  have hle := Nat.mod_le m cap
  have h2 : m + 1 - 1 - m % cap = cap * (m / cap) := by omega
  rw [h2, Nat.mul_mod_right]
  omega

theorem lastWriter_append_ne (m cap j : Nat) (hcap : 0 < cap) (hj : j < cap) (hjm : j < m)
    (hne : j ≠ m % cap) : lastWriter (m + 1) cap j = lastWriter m cap j := by
  unfold lastWriter
  have hnd : (m - j) % cap ≠ 0 := by
    intro h0
    obtain ⟨t, ht⟩ := Nat.dvd_of_mod_eq_zero h0
    have hm : m = cap * t + j := by omega
    rw [hm, Nat.mul_add_mod, Nat.mod_eq_of_lt hj] at hne
    exact hne rfl
  have hr := Nat.mod_lt (m - 1 - j) (y := cap) hcap
  have hrle := Nat.mod_le (m - 1 - j) cap
  have h1 : (m - j) % cap = (m - 1 - j) % cap + 1 := by
    have he : m - j = (m - 1 - j) + 1 := by omega
    rcases Nat.eq_or_lt_of_le hcap with hcap1 | hcap2
    · exfalso
      apply hnd
      have hc1 : cap = 1 := by omega
      subst hc1
      omega
    · have h1m : 1 % cap = 1 := Nat.mod_eq_of_lt hcap2
      rw [he, Nat.add_mod, h1m]
      rcases Nat.lt_or_ge ((m - 1 - j) % cap + 1) cap with hlt | hge
      · exact Nat.mod_eq_of_lt hlt
      · exfalso
        apply hnd
        have hcapeq : (m - 1 - j) % cap + 1 = cap := by omega
        rw [he, Nat.add_mod, h1m, hcapeq, Nat.mod_self]
  have h4 : m + 1 - 1 - j = m - j := by omega
  rw [h4, h1]
  omega

theorem lastWriter_recent (m cap w : Nat) (hcap : 0 < cap) (hw : w < m) (hge : m ≤ w + cap) :
    lastWriter m cap (w % cap) = w := by
  unfold lastWriter
  have hdm := Nat.div_add_mod w cap
  have hmle := Nat.mod_le w cap
  have he : m - 1 - w % cap = (m - 1 - w) + cap * (w / cap) := by omega
  rw [he, Nat.add_mul_mod_self_left, Nat.mod_eq_of_lt (by omega : m - 1 - w < cap)]
  omega

theorem ringInv_nil (c : RingConf) : RingInv c freshBuf [] := by
  refine ⟨?_, ?_, ?_⟩
  · rw [shm_read_int_freshBuf]
    simp
  · rw [shm_read_int_freshBuf]
    simp
  · intro j hj
    simp at hj

theorem int_mod_succ_cast (m cap : Nat) :
    (((m % cap : Nat) : Int) + 1) % (cap : Int) = (((m + 1) % cap : Nat) : Int) := by
  push_cast
  conv_rhs => rw [Int.add_emod]
  rw [Int.add_emod ((m : Int) % (cap : Int)) 1, Int.emod_emod_of_dvd _ dvd_rfl]

theorem ringInv_append (c : RingConf) (hc : GoodConf c) (buf : Buf)
    (packs : List (List Nat)) (hinv : RingInv c buf packs) (p : List Nat)
    (hp : p.length = c.entrySize) :
    RingInv c (ringAppend c buf p) (packs ++ [p]) := by
  obtain ⟨hh, he, hcap, hcap31, hE31⟩ := hc
  obtain ⟨h0, h4, hslots⟩ := hinv
  have hj0lt : packs.length % c.capacity < c.capacity := Nat.mod_lt _ hcap
  have hefs : (c.entryFullSize : Int) = 4 + (c.entrySize : Int) := by
    rw [RingConf.entryFullSize, he]
    push_cast
    ring
  have hpc : (p.length : Int) = (c.entrySize : Int) := by exact_mod_cast hp
  have hoge : (8 : Int) ≤ slotOffset c (packs.length % c.capacity) := slotOffset_ge c hh _
  have hE0 : (0 : Int) ≤ (c.entrySize : Int) := by positivity
  unfold ringAppend
  rw [h4, h0]
  rw [show (c.headerSize : Int) +
      ((packs.length % c.capacity : Nat) : Int) * (c.entryFullSize : Int) =
      slotOffset c (packs.length % c.capacity) from rfl]
  refine ⟨?_, ?_, ?_⟩
  · rw [List.length_append, List.length_singleton]
    rw [shm_read_int_write_int_sep _ _ _ _ (by omega),
      shm_read_int_write_int_self _ _ _ (by omega) (by omega)]
    push_cast
    omega
  · rw [List.length_append, List.length_singleton]
    rw [shm_read_int_write_int_self _ _ _
      (Int.emod_nonneg _ (by omega)) (by
        have := Int.emod_lt_of_pos (((packs.length % c.capacity : Nat) : Int) + 1)
          (b := (c.capacity : Int)) (by omega)
        omega)]
    rw [int_mod_succ_cast]
  · intro j hj
    rw [List.length_append, List.length_singleton] at hj
    have hjcap : j < c.capacity := by omega
    by_cases hjj : j = packs.length % c.capacity
    · subst hjj
      constructor
      · rw [shm_read_int_write_int_sep _ _ _ _ (by omega),
          shm_read_int_write_int_sep _ _ _ _ (by omega),
          shm_read_int_write_bytes_sep _ _ _ _ (by omega),
          shm_read_int_write_int_self _ _ _ (by omega) (by omega)]
      · rw [shm_read_bytes_write_int_sep _ _ _ _ _ (by omega),
          shm_read_bytes_write_int_sep _ _ _ _ _ (by omega)]
        rw [List.length_append, List.length_singleton, lastWriter_append_self _ _ hcap,
          List.getD_append_right _ _ _ _ (le_refl packs.length), Nat.sub_self,
          List.getD_cons_zero]
        rw [← hp]
        exact shm_read_bytes_write_bytes_self _ _ _
    · have hjm : j < min packs.length c.capacity := by
        rcases Nat.lt_or_ge packs.length c.capacity with hmc | hmc
        · have := Nat.mod_eq_of_lt hmc
          omega
        · omega
      obtain ⟨ih1, ih2⟩ := hslots j hjm
      have hjge : (8 : Int) ≤ slotOffset c j := slotOffset_ge c hh j
      have hsep : slotOffset c j + (c.entryFullSize : Int) ≤
            slotOffset c (packs.length % c.capacity) ∨
          slotOffset c (packs.length % c.capacity) + (c.entryFullSize : Int) ≤
            slotOffset c j := by
        rcases Nat.lt_or_ge j (packs.length % c.capacity) with hlt | hge
        · exact Or.inl (slotOffset_sep c _ _ hlt)
        · exact Or.inr (slotOffset_sep c _ _ (by omega))
      constructor
      · rw [shm_read_int_write_int_sep _ _ _ _ (by omega),
          shm_read_int_write_int_sep _ _ _ _ (by omega),
          shm_read_int_write_bytes_sep _ _ _ _ (by omega),
          shm_read_int_write_int_sep _ _ _ _ (by omega)]
        exact ih1
      · rw [shm_read_bytes_write_int_sep _ _ _ _ _ (by omega),
          shm_read_bytes_write_int_sep _ _ _ _ _ (by omega),
          shm_read_bytes_write_bytes_sep _ _ _ _ _ (by omega),
          shm_read_bytes_write_int_sep _ _ _ _ _ (by omega)]
        rw [ih2, List.length_append, List.length_singleton,
          lastWriter_append_ne _ _ _ hcap hjcap (by omega) hjj]
        have hlw : lastWriter packs.length c.capacity j < packs.length := by
          unfold lastWriter
          omega
        rw [List.getD_append _ _ _ _ hlw]

theorem ringInv_appendAll (c : RingConf) (hc : GoodConf c) (packs : List (List Nat))
    (hlen : ∀ p ∈ packs, p.length = c.entrySize) :
    RingInv c (appendAll c packs) packs := by
  induction packs using List.reverseRecOn with
  | nil => exact ringInv_nil c
  | append_singleton l p ih =>
    unfold appendAll
    rw [List.foldl_append, List.foldl_cons, List.foldl_nil]
    exact ringInv_append c hc _ l (ih (fun q hq => hlen q (by simp [hq]))) p
      (hlen p (by simp))

theorem filterMap_eq_map_of_forall {α β : Type} (l : List α) (f : α → Option β) (g : α → β)
    (h : ∀ x ∈ l, f x = some (g x)) : l.filterMap f = l.map g := by
  induction l with
  | nil => rfl
  | cons a l ih =>
    rw [List.filterMap_cons, h a (by simp), List.map_cons,
      ih (fun x hx => h x (by simp [hx]))]

theorem map_getD_range_eq_drop (l : List (List Nat)) (ν : Nat) (hν : ν ≤ l.length) :
    (List.range ν).map (fun i => l.getD (l.length - ν + i) []) = l.drop (l.length - ν) := by
  apply List.ext_getElem
  · simp
    omega
  · intro i h1 h2
    simp only [List.getElem_map, List.getElem_range, List.getElem_drop]
    rw [List.getD_eq_getElem]

theorem ringRead_idx (m cap ν i : Nat) (hν : ν ≤ m) :
    ((((m % cap : Nat) : Int) - (ν : Int)) % (cap : Int) + (i : Int)) % (cap : Int) =
      (((m - ν + i) % cap : Nat) : Int) := by
  push_cast [hν]
  conv_lhs => rw [Int.add_emod, Int.emod_emod_of_dvd _ dvd_rfl, ← Int.add_emod]
  conv_lhs => rw [show ((m : Int) % (cap : Int) - (ν : Int) + (i : Int)) =
    (m : Int) % (cap : Int) + ((i : Int) - (ν : Int)) from by ring]
  rw [Int.add_emod, Int.emod_emod_of_dvd _ dvd_rfl, ← Int.add_emod]
  congr 1
  ring

theorem ringRead_spec (c : RingConf) (hc : GoodConf c) (buf : Buf)
    (packs : List (List Nat)) (hinv : RingInv c buf packs) (n : Nat) :
    ringRead c buf (n : Int) =
      packs.drop (packs.length - min n (min packs.length c.capacity)) := by
  obtain ⟨hh, he, hcap, hcap31, hE31⟩ := hc
  obtain ⟨h0, h4, hslots⟩ := hinv
  have hνm : min n (min packs.length c.capacity) ≤ packs.length := by omega
  have hνcap : min n (min packs.length c.capacity) ≤ c.capacity := by omega
  unfold ringRead
  rw [h0, h4]
  have hmin : min (((min packs.length c.capacity : Nat) : Int)) (n : Int) =
      ((min n (min packs.length c.capacity) : Nat) : Int) := by
    push_cast
    omega
  rw [hmin]
  by_cases hν0 : min n (min packs.length c.capacity) = 0
  · rw [if_pos (by exact_mod_cast hν0)]
    rw [hν0, Nat.sub_zero, List.drop_length]
  · rw [if_neg (by exact_mod_cast hν0)]
    rw [Int.toNat_natCast]
    rw [filterMap_eq_map_of_forall _ _
      (fun i => packs.getD (packs.length - min n (min packs.length c.capacity) + i) []) ?_]
    · exact map_getD_range_eq_drop packs _ hνm
    · intro i hi
      have hiν : i < min n (min packs.length c.capacity) := List.mem_range.mp hi
      rw [ringRead_idx packs.length c.capacity _ i hνm]
      have hjlt : (packs.length - min n (min packs.length c.capacity) + i) % c.capacity <
          min packs.length c.capacity := by
        rcases Nat.lt_or_ge packs.length c.capacity with hmc | hmc
        · have hmlt : packs.length - min n (min packs.length c.capacity) + i < c.capacity := by
            omega
          rw [Nat.mod_eq_of_lt hmlt]
          omega
        · have := Nat.mod_lt (packs.length - min n (min packs.length c.capacity) + i) hcap
          omega
      obtain ⟨hs1, hs2⟩ := hslots _ hjlt
      rw [show (c.headerSize : Int) +
          (((packs.length - min n (min packs.length c.capacity) + i) % c.capacity : Nat) : Int) *
            (c.entryFullSize : Int) =
          slotOffset c ((packs.length - min n (min packs.length c.capacity) + i) % c.capacity)
          from rfl]
      rw [hs1, if_pos rfl, he] at *
      rw [hs2, lastWriter_recent packs.length c.capacity
        (packs.length - min n (min packs.length c.capacity) + i) hcap (by omega) (by omega)]

theorem padField_length (w : Nat) (v : List Nat) : (padField w v).length = w := by
  unfold padField
  rw [List.length_append, List.length_replicate, List.length_take]
  omega

theorem pack_log_entry_length (e : LogEntry) : ( _pack_log_entry e).length = 1379 := by
  unfold _pack_log_entry
  simp [padField_length]

theorem pack_attempt_entry_length (a : AuthEvent) : (packAuthEvent a).length = 136 := by
  unfold packAuthEvent _pack_attempt_entry
  simp [padField_length]

theorem foldl_add_log_fst (entries : List LogEntry) (st : Buf × Buf) :
    (entries.foldl add_log_to_shm st).1 =
      (entries.map _pack_log_entry).foldl (ringAppend logsRingConf) st.1 := by
  induction entries generalizing st with
  | nil => rfl
  | cons e l ih =>
    rw [List.foldl_cons, List.map_cons, List.foldl_cons, ih]
    rfl

theorem foldl_addAuthEvent (args : List AuthEvent) (buf : Buf) :
    args.foldl addAuthEvent buf =
      (args.map packAuthEvent).foldl (ringAppend authRingConf) buf := by
  induction args generalizing buf with
  | nil => rfl
  | cons a l ih =>
    rw [List.foldl_cons, List.map_cons, List.foldl_cons, ih]
    rfl

theorem get_logs_appendAll (entries : List LogEntry) (n : Nat) (cnt : Buf) :
    get_logs_from_shm ((entries.foldl add_log_to_shm (freshBuf, cnt)).1) (n : Int) =
      ((entries.drop (entries.length - min n (min entries.length 1000))).map
        fun e => _unpack_log_entry ( _pack_log_entry e)) := by
  rw [foldl_add_log_fst]
  have hinv := ringInv_appendAll logsRingConf goodConf_logs (entries.map _pack_log_entry)
    (by
      intro p hp
      rw [List.mem_map] at hp
      obtain ⟨e, he, rfl⟩ := hp
      exact pack_log_entry_length e)
  rw [get_logs_from_shm,
    show (entries.map _pack_log_entry).foldl (ringAppend logsRingConf) (freshBuf, cnt).1 =
      appendAll logsRingConf (entries.map _pack_log_entry) from rfl,
    ringRead_spec logsRingConf goodConf_logs _ _ hinv n]
  rw [List.length_map, show logsRingConf.capacity = 1000 from rfl,
    ← List.map_drop, List.map_map]
  rfl

theorem get_auth_appendAll (args : List AuthEvent) :
    get_auth_attempts_from_shm (args.foldl addAuthEvent freshBuf) 0 =
      ((args.drop (args.length - min args.length 1000)).map
        fun a => _unpack_attempt_entry (packAuthEvent a)) := by
  rw [foldl_addAuthEvent]
  have hinv := ringInv_appendAll authRingConf goodConf_auth (args.map packAuthEvent)
    (by
      intro p hp
      rw [List.mem_map] at hp
      obtain ⟨a, ha, rfl⟩ := hp
      exact pack_attempt_entry_length a)
  rw [get_auth_attempts_from_shm, if_neg (by omega)]
  rw [show (args.map packAuthEvent).foldl (ringAppend authRingConf) freshBuf =
      appendAll authRingConf (args.map packAuthEvent) from rfl]
  rw [show (1000 : Int) = ((1000 : Nat) : Int) from rfl,
    ringRead_spec authRingConf goodConf_auth _ _ hinv 1000]
  rw [List.length_map, show authRingConf.capacity = 1000 from rfl,
    show min 1000 (min args.length 1000) = min args.length 1000 from by omega,
    ← List.map_drop, List.map_map]
  rfl

theorem incN_read (n : Nat) :
    shm_read_int (incN n freshBuf) 0 = ((n % 2000000000 : Nat) : Int) := by
  induction n with
  | zero =>
    rw [incN, shm_read_int_freshBuf]
    norm_num
  | succ k ih =>
    show shm_read_int (shm_write_int (incN k freshBuf) 0
      ((shm_read_int (incN k freshBuf) 0 + 1) % 2000000000)) 0 = _
    rw [ih]
    rw [shm_read_int_write_int_self _ _ _
      (Int.emod_nonneg _ (by norm_num))
      (by
        have := Int.emod_lt_of_pos ((((k % 2000000000 : Nat) : Int)) + 1)
          (b := 2000000000) (by norm_num)
        omega)]
    push_cast
    omega

theorem read_settings_after_write {J : Type} (emptyJ : J) (jsonLoads : List Nat → Option J)
    (buf : Buf) (mtime : Int) (p : List Nat) (hm0 : 0 ≤ mtime) (hm1 : mtime < 2 ^ 31)
    (hp0 : 0 < p.length) (hp1 : p.length ≤ 65536) :
    read_settings_from_shm emptyJ jsonLoads (write_settings_to_shm buf mtime p).1 =
      match jsonLoads p with
      | some d => Except.ok (mtime, d)
      | none => Except.error () := by
  rw [write_settings_to_shm, if_neg (by omega)]
  rw [read_settings_from_shm]
  have h8 : shm_read_int
      (shm_write_bytes (shm_write_int (shm_write_int buf 0 mtime) 8 (p.length : Int)) 16 p) 8 =
      (p.length : Int) := by
    rw [shm_read_int_write_bytes_sep _ _ _ _ (by omega),
      shm_read_int_write_int_self _ _ _ (by omega) (by omega)]
  have h0 : shm_read_int
      (shm_write_bytes (shm_write_int (shm_write_int buf 0 mtime) 8 (p.length : Int)) 16 p) 0 =
      mtime := by
    rw [shm_read_int_write_bytes_sep _ _ _ _ (by omega),
      shm_read_int_write_int_sep _ _ _ _ (by omega),
      shm_read_int_write_int_self _ _ _ hm0 hm1]
  have hb : shm_read_bytes
      (shm_write_bytes (shm_write_int (shm_write_int buf 0 mtime) 8 (p.length : Int)) 16 p) 16
      ((p.length : Int)).toNat = p := by
    rw [Int.toNat_natCast]
    exact shm_read_bytes_write_bytes_self _ _ _
  rw [h8, h0, hb, if_neg (by omega)]

theorem foldl_min_le_init (l : List Int) (p : Int) : l.foldl min p ≤ p := by
  induction l generalizing p with
  | nil => simp
  | cons q l ih =>
    rw [List.foldl_cons]
    exact le_trans (ih (min p q)) (min_le_left p q)

theorem foldl_min_le_mem (l : List Int) (p : Int) (q : Int) (hq : q ∈ l) :
    l.foldl min p ≤ q := by
  induction l generalizing p with
  | nil => simp at hq
  | cons r l ih =>
    rw [List.foldl_cons]
    rcases List.mem_cons.mp hq with rfl | hq2
    · exact le_trans (foldl_min_le_init l (min p q)) (min_le_right p q)
    · exact ih (min p r) hq2

theorem foldl_min_mem (l : List Int) (p : Int) : l.foldl min p = p ∨ l.foldl min p ∈ l := by
  induction l generalizing p with
  | nil => left; rfl
  | cons q l ih =>
    rw [List.foldl_cons]
    rcases ih (min p q) with h | h
    · rcases le_total p q with hpq | hpq
      · left
        rw [h, min_eq_left hpq]
      · right
        rw [h, min_eq_right hpq]
        exact List.mem_cons_self q l
    · right
      exact List.mem_cons_of_mem q h

theorem pyMin_mem (l : List Int) (hne : l ≠ []) : pyMin l ∈ l := by
  match l with
  | p :: rest =>
    rw [pyMin]
    rcases foldl_min_mem rest p with h | h
    · rw [h]
      exact List.mem_cons_self p rest
    · exact List.mem_cons_of_mem p h

theorem pyMin_le (l : List Int) (q : Int) (hq : q ∈ l) : pyMin l ≤ q := by
  match l with
  | p :: rest =>
    rw [pyMin]
    rcases List.mem_cons.mp hq with rfl | hq2
    · exact foldl_min_le_init rest q
    · exact foldl_min_le_mem rest p q hq2

theorem validStr_defaultSuffix : ValidStr defaultSuffix := by decide

theorem validStr_nil : ValidStr [] := by
  intro c hc
  simp at hc

theorem padField_of_le (w : Nat) (v : List Nat) (h : (utf8Encode v).length ≤ w) :
    padField w v = utf8Encode v ++ List.replicate (w - (utf8Encode v).length) 32 := by
  unfold padField
  rw [List.take_of_length_le h]

theorem drop_pad_append (w n : Nat) (v l : List Nat) (h : w ≤ n) :
    (padField w v ++ l).drop n = l.drop (n - w) := by
  rw [List.drop_append_eq_append_drop, padField_length,
    List.drop_eq_nil_of_le (by rw [padField_length]; omega), List.nil_append]

theorem pack_log_msg_field (e : LogEntry) :
    (( _pack_log_entry e).drop 79).take 1300 =
      padField 1300 ( _shorten_message e.message 1300 defaultSuffix) := by
  unfold _pack_log_entry
  simp [List.drop_append_eq_append_drop, padField_length, List.drop_eq_nil_of_le,
    List.take_of_length_le, List.take_append_eq_append_take]

theorem pack_log_module_field (e : LogEntry) :
    (( _pack_log_entry e).drop 22).take 20 = padField 20 e.module := by
  unfold _pack_log_entry
  simp [List.drop_append_eq_append_drop, padField_length, List.drop_eq_nil_of_le,
    List.take_of_length_le, List.take_append_eq_append_take]

theorem pack_attempt_username_field (client_ip : List Nat) (timestamp : Int)
    (username : List Nat) (success : Bool) (unlock_time : Int) :
    (( _pack_attempt_entry client_ip timestamp username success unlock_time).drop 55).take 64 =
      padField 64 ( _shorten_message username 64 []) := by
  unfold _pack_attempt_entry
  simp [List.drop_append_eq_append_drop, padField_length, List.drop_eq_nil_of_le,
    List.take_of_length_le, List.take_append_eq_append_take]

theorem shorten_message_field (msg : List Nat) (hm : ValidStr msg) :
    ∃ s, ValidStr s ∧
      padField 1300 ( _shorten_message msg 1300 defaultSuffix) =
        utf8Encode s ++ List.replicate (1300 - (utf8Encode s).length) 32 ∧
      (s = msg ∨ ∃ k, s = msg.take k ++ defaultSuffix) := by
  rcases le_or_lt (utf8Encode msg).length 1300 with hle | hlt
  · refine ⟨msg, hm, ?_, Or.inl rfl⟩
    have hres : _shorten_message msg 1300 defaultSuffix = msg := by
      unfold _shorten_message
      rw [if_pos hle]
    rw [hres, padField_of_le _ _ hle]
  · obtain ⟨k, hk, hlen⟩ := shorten_long_fits msg defaultSuffix 1300 hm hlt (by decide)
    rw [hk] at hlen
    refine ⟨msg.take k ++ defaultSuffix,
      validStr_append _ _ (validStr_take _ _ hm) validStr_defaultSuffix, ?_,
      Or.inr ⟨k, rfl⟩⟩
    rw [hk, padField_of_le _ _ hlen]

theorem shorten_username_field (u : List Nat) (hu : ValidStr u) :
    ∃ s, ValidStr s ∧
      padField 64 ( _shorten_message u 64 []) =
        utf8Encode s ++ List.replicate (64 - (utf8Encode s).length) 32 ∧
      (s = u ∨ ∃ k, s = u.take k) := by
  rcases le_or_lt (utf8Encode u).length 64 with hle | hlt
  · refine ⟨u, hu, ?_, Or.inl rfl⟩
    have hres : _shorten_message u 64 [] = u := by
      unfold _shorten_message
      rw [if_pos hle]
    rw [hres, padField_of_le _ _ hle]
  · obtain ⟨k, hk, hlen⟩ := shorten_long_fits u [] 64 hu hlt (by simp [utf8Encode])
    rw [List.append_nil] at hk
    rw [hk] at hlen
    refine ⟨u.take k, validStr_take _ _ hu, ?_, Or.inr ⟨k, rfl⟩⟩
    rw [hk, padField_of_le _ _ hlen]

/-- C1.  Ring-buffer FIFO content: after `M >= 1000` appends on a fresh
region, reading the last 1000 records of the logs ring (and the full read
of the auth ring) returns exactly the decoded forms of the records
`r_(M-1000) .. r_(M-1)`, oldest first; earlier records are gone. -/
theorem c1_ring_fifo_content (entries : List LogEntry) (cnt : Buf)
    (hM : 1000 ≤ entries.length) (attempts : List AuthEvent)
    (hA : 1000 ≤ attempts.length) :
    get_logs_from_shm ((entries.foldl add_log_to_shm (freshBuf, cnt)).1) 1000 =
      ((entries.drop (entries.length - 1000)).map
        fun e => _unpack_log_entry ( _pack_log_entry e)) ∧
    get_auth_attempts_from_shm (attempts.foldl addAuthEvent freshBuf) 0 =
      ((attempts.drop (attempts.length - 1000)).map
        fun a => _unpack_attempt_entry (packAuthEvent a)) := by
  constructor
  · have h := get_logs_appendAll entries 1000 cnt
    rw [show ((1000 : Nat) : Int) = (1000 : Int) from rfl,
      show min 1000 (min entries.length 1000) = 1000 from by omega] at h
    exact h
  · have h := get_auth_appendAll attempts
    rw [show min attempts.length 1000 = 1000 from by omega] at h
    exact h

theorem c1_witness :
    1000 ≤ (List.replicate 1000 emptyLogEntry).length ∧
    1000 ≤ (List.replicate 1000 emptyAuthEvent).length ∧
    (get_logs_from_shm
        (((List.replicate 1000 emptyLogEntry).foldl add_log_to_shm (freshBuf, freshBuf)).1) 1000 =
      (((List.replicate 1000 emptyLogEntry).drop
          ((List.replicate 1000 emptyLogEntry).length - 1000)).map
        fun e => _unpack_log_entry ( _pack_log_entry e)) ∧
    get_auth_attempts_from_shm
        ((List.replicate 1000 emptyAuthEvent).foldl addAuthEvent freshBuf) 0 =
      (((List.replicate 1000 emptyAuthEvent).drop
          ((List.replicate 1000 emptyAuthEvent).length - 1000)).map
        fun a => _unpack_attempt_entry (packAuthEvent a))) :=
  ⟨by simp, by simp,
    c1_ring_fifo_content (List.replicate 1000 emptyLogEntry) freshBuf (by simp)
      (List.replicate 1000 emptyAuthEvent) (by simp)⟩

/-- C6.  Ring-buffer read bound: against a region holding only slots written
by append, reading the last `n` records returns exactly
`min n count` records in decoded form — never more than `count`, never
garbage — and `n = 0` or `count = 0` give the empty list; the auth read is
the same with its fixed limit of 1000 (the capacity). -/
theorem c6_ring_read_bound (entries : List LogEntry) (cnt : Buf) (n : Nat)
    (attempts : List AuthEvent) :
    get_logs_from_shm ((entries.foldl add_log_to_shm (freshBuf, cnt)).1) (n : Int) =
      ((entries.drop (entries.length - min n (min entries.length 1000))).map
        fun e => _unpack_log_entry ( _pack_log_entry e)) ∧
    (get_logs_from_shm ((entries.foldl add_log_to_shm (freshBuf, cnt)).1) (n : Int)).length =
      min n (min entries.length 1000) ∧
    get_logs_from_shm ((entries.foldl add_log_to_shm (freshBuf, cnt)).1) 0 = [] ∧
    get_logs_from_shm freshBuf (n : Int) = [] ∧
    (get_auth_attempts_from_shm (attempts.foldl addAuthEvent freshBuf) 0).length =
      min attempts.length 1000 := by
  refine ⟨get_logs_appendAll entries n cnt, ?_, ?_, ?_, ?_⟩
  · rw [get_logs_appendAll entries n cnt, List.length_map, List.length_drop]
    omega
  · have h := get_logs_appendAll entries 0 cnt
    rw [show ((0 : Nat) : Int) = (0 : Int) from rfl] at h
    rw [h]
    simp
  · have h := get_logs_appendAll [] n freshBuf
    simpa using h
  · rw [get_auth_appendAll attempts, List.length_map, List.length_drop]
    omega

/-- C5.  Counter wraparound: each increment stores
`(old + 1) % 2000000000`; from a fresh zero counter, `2000000005`
increments leave `5`; the stored value is always in `[0, 2000000000)`.
The last conjunct exhibits the divergence from the claim: the Python
function returns `None` (its success path has no `return` statement),
although its own docstring documents returning the new value. -/
theorem c5_counter_wraparound :
    (∀ n : Nat, shm_read_int (incN n freshBuf) 0 = ((n % 2000000000 : Nat) : Int)) ∧
    shm_read_int (incN 2000000005 freshBuf) 0 = 5 ∧
    (∀ n : Nat, 0 ≤ shm_read_int (incN n freshBuf) 0 ∧
      shm_read_int (incN n freshBuf) 0 < 2000000000) ∧
    (inc_logs_counter freshBuf).2 = none ∧
    shm_read_int ((inc_logs_counter freshBuf).1) 0 = 1 := by
  refine ⟨incN_read, ?_, ?_, rfl, ?_⟩
  · rw [incN_read]
    norm_num
  · intro n
    rw [incN_read]
    have h : n % 2000000000 < 2000000000 := Nat.mod_lt _ (by norm_num)
    constructor
    · positivity
    · exact_mod_cast h
  · show shm_read_int (incN 1 freshBuf) 0 = 1
    rw [incN_read]
    norm_num

/-- C2 counterexample: an over-capacity settings write is NOT surfaced to
the caller as an error: the function logs and returns normally, exactly as
a successful write does (the second components coincide), while leaving the
region untouched. -/
theorem c2_counterexample :
    (write_settings_to_shm freshBuf 0 (List.replicate 65537 0)).2 = Except.ok () ∧
    (write_settings_to_shm freshBuf 0 (List.replicate 65537 0)).1 = freshBuf ∧
    (write_settings_to_shm freshBuf 0 [65]).2 = Except.ok () := by
  refine ⟨?_, ?_, ?_⟩
  · rw [write_settings_to_shm, if_pos (by rw [List.length_replicate] ; norm_num)]
  · rw [write_settings_to_shm, if_pos (by rw [List.length_replicate] ; norm_num)]
  · rw [write_settings_to_shm, if_neg (by norm_num)]

/-- C2 (amended).  Versioned-blob all-or-nothing write: an over-capacity
write leaves the stored mtime, length header and payload byte-for-byte
unchanged — a subsequent read still returns the previously stored blob —
but the condition is only logged: the function returns normally
(`None`), indistinguishable from success for the caller. -/
theorem c2_blob_overflow_preserves_state (buf0 : Buf) (m0 : Int) (p0 : List Nat)
    (m1 : Int) (p1 : List Nat) (hm0 : 0 ≤ m0) (hm1 : m0 < 2 ^ 31)
    (hp0 : 0 < p0.length) (hp1 : p0.length ≤ 65536) (hbig : 65536 < p1.length) :
    (write_settings_to_shm (write_settings_to_shm buf0 m0 p0).1 m1 p1).1 =
        (write_settings_to_shm buf0 m0 p0).1 ∧
    (write_settings_to_shm (write_settings_to_shm buf0 m0 p0).1 m1 p1).2 = Except.ok () ∧
    ∀ (J : Type) (emptyJ : J) (jsonLoads : List Nat → Option J),
      read_settings_from_shm emptyJ jsonLoads
          (write_settings_to_shm (write_settings_to_shm buf0 m0 p0).1 m1 p1).1 =
        match jsonLoads p0 with
        | some d => Except.ok (m0, d)
        | none => Except.error () := by
  have hw : write_settings_to_shm (write_settings_to_shm buf0 m0 p0).1 m1 p1 =
      ((write_settings_to_shm buf0 m0 p0).1, Except.ok ()) := by
    rw [write_settings_to_shm, if_pos (by omega)]
  refine ⟨by rw [hw], by rw [hw], ?_⟩
  intro J emptyJ jsonLoads
  rw [hw]
  exact read_settings_after_write emptyJ jsonLoads buf0 m0 p0 hm0 hm1 hp0 hp1

theorem c2_witness :
    (0 : Int) ≤ 7 ∧ (7 : Int) < 2 ^ 31 ∧ 0 < [65].length ∧ [65].length ≤ 65536 ∧
    65536 < (List.replicate 65537 0).length ∧
    ((write_settings_to_shm (write_settings_to_shm freshBuf 7 [65]).1 9
        (List.replicate 65537 0)).1 = (write_settings_to_shm freshBuf 7 [65]).1 ∧
      (write_settings_to_shm (write_settings_to_shm freshBuf 7 [65]).1 9
        (List.replicate 65537 0)).2 = Except.ok () ∧
      ∀ (J : Type) (emptyJ : J) (jsonLoads : List Nat → Option J),
        read_settings_from_shm emptyJ jsonLoads
            (write_settings_to_shm (write_settings_to_shm freshBuf 7 [65]).1 9
              (List.replicate 65537 0)).1 =
          match jsonLoads [65] with
          | some d => Except.ok (7, d)
          | none => Except.error ()) :=
  ⟨by norm_num, by norm_num, by norm_num, by norm_num,
    by rw [List.length_replicate] ; norm_num,
    c2_blob_overflow_preserves_state freshBuf 7 [65] 9 (List.replicate 65537 0)
      (by norm_num) (by norm_num) (by norm_num) (by norm_num)
      (by rw [List.length_replicate] ; norm_num)⟩

/-- C3.  `_shorten_message` postconditions: text whose UTF-8 encoding fits
in `max_len` bytes is returned unchanged; when it does not fit and
`max_len` is smaller than the byte length of the suffix, the result is a
(character) prefix of the suffix; otherwise the result is a
codepoint-boundary-safe prefix of the text plus the suffix, its total
UTF-8 length is at most `max_len`, and it is a valid (scalar-value)
string. -/
theorem c3_shorten_message_spec (message suffix : List Nat) (max_len : Nat)
    (hm : ValidStr message) (hs : ValidStr suffix) :
    ((utf8Encode message).length ≤ max_len →
      _shorten_message message max_len suffix = message) ∧
    (max_len < (utf8Encode message).length →
      max_len < (utf8Encode suffix).length →
      ∃ t, _shorten_message message max_len suffix ++ t = suffix) ∧
    (max_len < (utf8Encode message).length →
      (utf8Encode suffix).length ≤ max_len →
      ∃ k, _shorten_message message max_len suffix = message.take k ++ suffix ∧
        (utf8Encode ( _shorten_message message max_len suffix)).length ≤ max_len ∧
        ValidStr ( _shorten_message message max_len suffix)) := by
  refine ⟨?_, ?_, ?_⟩
  · intro h
    unfold _shorten_message
    rw [if_pos h]
  · intro h1 h2
    unfold _shorten_message
    rw [if_neg (by omega), if_pos (by omega)]
    exact ⟨suffix.drop max_len, List.take_append_drop _ _⟩
  · intro h1 h2
    obtain ⟨k, hk, hlen⟩ := shorten_long_fits message suffix max_len hm h1 h2
    refine ⟨k, hk, hlen, ?_⟩
    rw [hk]
    exact validStr_append _ _ (validStr_take _ _ hm) hs

theorem c3_witness :
    ValidStr [104, 233, 108, 108, 111] ∧ ValidStr [46, 46] ∧
    (((utf8Encode [104, 233, 108, 108, 111]).length ≤ 4 →
      _shorten_message [104, 233, 108, 108, 111] 4 [46, 46] = [104, 233, 108, 108, 111]) ∧
    (4 < (utf8Encode [104, 233, 108, 108, 111]).length →
      4 < (utf8Encode [46, 46]).length →
      ∃ t, _shorten_message [104, 233, 108, 108, 111] 4 [46, 46] ++ t = [46, 46]) ∧
    (4 < (utf8Encode [104, 233, 108, 108, 111]).length →
      (utf8Encode [46, 46]).length ≤ 4 →
      ∃ k, _shorten_message [104, 233, 108, 108, 111] 4 [46, 46] =
          [104, 233, 108, 108, 111].take k ++ [46, 46] ∧
        (utf8Encode ( _shorten_message [104, 233, 108, 108, 111] 4 [46, 46])).length ≤ 4 ∧
        ValidStr ( _shorten_message [104, 233, 108, 108, 111] 4 [46, 46]))) :=
  ⟨by decide, by decide,
    c3_shorten_message_spec [104, 233, 108, 108, 111] [46, 46] 4 (by decide) (by decide)⟩

/-- C4.  Segment open-or-create semantics: when the attempt proceeds
(`ok`), an existing segment is attached with `is_creator = false`; an
absent segment with `create = true` is created with exactly `size` bytes
and `is_creator = true`; an absent segment with `create = false` gives the
`(None, False)` sentinel without raising; and when all five retries fail,
the sentinel is returned as well. -/
theorem c4_shm_initialize_spec (name : String) (size : Nat) (create : Bool)
    (os : OsState) (events : List InitEvent) :
    (∀ rest sz, events = InitEvent.ok :: rest → os name = some sz →
      shm_initialize_model name size create os events =
        (os, some ⟨name, sz, false⟩, false)) ∧
    (∀ rest, events = InitEvent.ok :: rest → os name = none → create = true →
      shm_initialize_model name size create os events =
        ((fun n => if n = name then some size else os n), some ⟨name, size, false⟩, true)) ∧
    (∀ rest, events = InitEvent.ok :: rest → os name = none → create = false →
      shm_initialize_model name size create os events = (os, none, false)) ∧
    ((∀ e ∈ events, e ≠ InitEvent.ok) →
      (shm_initialize_model name size create os events).2 = (none, false)) := by
  refine ⟨?_, ?_, ?_, ?_⟩
  · intro rest sz hev hos
    subst hev
    rw [shm_initialize_model, List.take_succ_cons]
    simp only [shmInitLoop, hos]
  · intro rest hev hos hcr
    subst hev
    subst hcr
    rw [shm_initialize_model, List.take_succ_cons]
    simp only [shmInitLoop, hos, if_true]
  · intro rest hev hos hcr
    subst hev
    subst hcr
    rw [shm_initialize_model, List.take_succ_cons]
    simp [shmInitLoop, hos]
  · intro hall
    have haux : ∀ (evs : List InitEvent) (os2 : OsState),
        (∀ e ∈ evs, e ≠ InitEvent.ok) →
        (shmInitLoop name size create os2 evs).2 = (none, false) := by
      intro evs
      induction evs with
      | nil =>
        intro os2 h
        rfl
      | cons e l ih =>
        intro os2 h
        cases e with
        | ok => exact absurd rfl (h InitEvent.ok (by simp))
        | lockTimeout => exact ih os2 (fun x hx => h x (by simp [hx]))
        | corrupted => exact ih (osRemove os2 name) (fun x hx => h x (by simp [hx]))
        | otherError => exact ih os2 (fun x hx => h x (by simp [hx]))
    exact haux (events.take 5) os (fun e he => hall e (List.mem_of_mem_take he))

theorem c4_witness :
    shm_initialize_model "x" 7 true (fun n => if n = "x" then some 5 else none)
        [InitEvent.ok] =
      ((fun n => if n = "x" then some 5 else none), some ⟨"x", 5, false⟩, false) :=
  (c4_shm_initialize_spec "x" 7 true _ [InitEvent.ok]).1 [] 5 rfl (by simp)

/-- C7 counterexample: in `_pack_log_entry` the `module` field is truncated
by the raw byte slice `value.encode("utf-8")[:20]`, which splits the
two-byte é at the field boundary: the packed field bytes are not the UTF-8
encoding of any string, so they cannot have the boundary-safe
pad(encode(truncated value) ++ marker) shape the claim asserts for every
string field. -/
theorem c7_counterexample :
    ¬ ∃ s, ValidStr s ∧
      (( _pack_log_entry c7Entry).drop 22).take 20 = utf8Encode s := by
  rw [pack_log_module_field]
  rintro ⟨s, hv, hs⟩
  have hround := utf8DecodeIgnore_encode s hv
  have hne : utf8Encode (utf8DecodeIgnore (padField 20 c7Entry.module)) ≠
      padField 20 c7Entry.module := by decide
  apply hne
  rw [hs, hround]

/-- C7 (amended).  Record field packing: every field is sliced to its fixed
byte width and right-padded with spaces (0x20); only the logs `message`
field (marker `"... (truncated)"`) and the auth `username` field (empty
marker) are truncated boundary-safely through `_shorten_message`, so their
packed bytes are always a valid UTF-8 encoding followed by space padding;
every other field is truncated by a raw byte slice `encode(value)[:width]`,
which may split a multi-byte code point (the `module` conjunct shows the
raw-slice shape; see the counterexample). -/
theorem c7_field_packing_amended (e : LogEntry) (hmsg : ValidStr e.message)
    (client_ip : List Nat) (timestamp : Int) (username : List Nat) (success : Bool)
    (unlock_time : Int) (hu : ValidStr username) :
    (∃ s, ValidStr s ∧
      (( _pack_log_entry e).drop 79).take 1300 =
        utf8Encode s ++ List.replicate (1300 - (utf8Encode s).length) 32 ∧
      (s = e.message ∨ ∃ k, s = e.message.take k ++ defaultSuffix)) ∧
    (∃ s, ValidStr s ∧
      (( _pack_attempt_entry client_ip timestamp username success unlock_time).drop
          55).take 64 =
        utf8Encode s ++ List.replicate (64 - (utf8Encode s).length) 32 ∧
      (s = username ∨ ∃ k, s = username.take k)) ∧
    (( _pack_log_entry e).drop 22).take 20 =
      (utf8Encode e.module).take 20 ++
        List.replicate (20 - ((utf8Encode e.module).take 20).length) 32 ∧
    ( _pack_log_entry e).length = 1379 ∧
    ( _pack_attempt_entry client_ip timestamp username success unlock_time).length = 136 := by
  refine ⟨?_, ?_, ?_, pack_log_entry_length e, ?_⟩
  · rw [pack_log_msg_field]
    exact shorten_message_field e.message hmsg
  · rw [pack_attempt_username_field]
    exact shorten_username_field username hu
  · rw [pack_log_module_field]
    rfl
  · exact pack_attempt_entry_length ⟨client_ip, timestamp, username, success, unlock_time⟩

theorem c7_witness :
    ValidStr emptyLogEntry.message ∧ ValidStr [] ∧
    ((∃ s, ValidStr s ∧
      (( _pack_log_entry emptyLogEntry).drop 79).take 1300 =
        utf8Encode s ++ List.replicate (1300 - (utf8Encode s).length) 32 ∧
      (s = emptyLogEntry.message ∨ ∃ k, s = emptyLogEntry.message.take k ++ defaultSuffix)) ∧
    (∃ s, ValidStr s ∧
      (( _pack_attempt_entry [] 0 [] false 0).drop 55).take 64 =
        utf8Encode s ++ List.replicate (64 - (utf8Encode s).length) 32 ∧
      (s = [] ∨ ∃ k, s = List.take k [])) ∧
    (( _pack_log_entry emptyLogEntry).drop 22).take 20 =
      (utf8Encode emptyLogEntry.module).take 20 ++
        List.replicate (20 - ((utf8Encode emptyLogEntry.module).take 20).length) 32 ∧
    ( _pack_log_entry emptyLogEntry).length = 1379 ∧
    ( _pack_attempt_entry [] 0 [] false 0).length = 136) :=
  ⟨by decide, by decide,
    c7_field_packing_amended emptyLogEntry (by decide) [] 0 [] false 0 (by decide)⟩

/-- C8.  Cleanup totality: `shm_cleanup` always returns normally (never
raises, never terminates the process); the caller only closes its own
handle; no name other than its own is touched; a non-creator never deletes;
deleting an already-deleted region is a no-op; only a creator removes the
OS object; and running cleanup a second time is a no-op as well. -/
theorem c8_cleanup_total (os : OsState) (h : ShmHandle) (is_creator : Bool) :
    ∃ os2 h2, shm_cleanup os h is_creator = Except.ok (os2, h2) ∧
      h2.closed = true ∧
      (∀ n, n ≠ h.name → os2 n = os n) ∧
      (is_creator = false → os2 = os) ∧
      (os h.name = none → os2 = os) ∧
      os2 h.name = (if is_creator = true then none else os h.name) ∧
      shm_cleanup os2 h2 is_creator = Except.ok (os2, h2) := by
  cases is_creator with
  | false =>
    exact ⟨os, ⟨h.name, h.size, true⟩, rfl, rfl, fun n hn => rfl, fun _ => rfl, fun _ => rfl,
      rfl, rfl⟩
  | true =>
    rcases hpres : os h.name with _ | sz
    · refine ⟨os, ⟨h.name, h.size, true⟩, ?_, rfl, fun n hn => rfl, ?_, fun _ => rfl, ?_, ?_⟩
      · rw [shm_cleanup]
        simp [osUnlink, hpres]
      · intro hf
        exact absurd hf (by simp)
      · simp [hpres]
      · rw [shm_cleanup]
        simp [osUnlink, hpres]
    · refine ⟨osRemove os h.name, ⟨h.name, h.size, true⟩, ?_, rfl, ?_, ?_, ?_, ?_, ?_⟩
      · rw [shm_cleanup]
        simp [osUnlink, hpres]
      · intro n hn
        rw [osRemove]
        simp [hn]
      · intro hf
        exact absurd hf (by simp)
      · intro h0
        simp at h0
      · simp [osRemove]
      · rw [shm_cleanup]
        simp [osUnlink, osRemove]

/-- C9.  Leader election: for a non-empty roster, the minimum is a member
and a lower bound, exactly one value of the roster equals the minimum, and
`log_pids` marks the caller as leader iff its own pid equals the roster
minimum. -/
theorem c9_leader_election (pids : List Int) (my_pid : Int) (hne : pids ≠ []) :
    pyMin pids ∈ pids ∧ (∀ q ∈ pids, pyMin pids ≤ q) ∧
    (∃! p, p ∈ pids ∧ p = pyMin pids) ∧
    (elect_leader pids my_pid = true ↔ my_pid = pyMin pids) := by
  refine ⟨pyMin_mem pids hne, fun q hq => pyMin_le pids q hq,
    ⟨pyMin pids, ⟨pyMin_mem pids hne, rfl⟩, fun y hy => hy.2⟩, ?_⟩
  match pids with
  | p :: rest =>
    rw [elect_leader]
    simp

theorem c9_witness :
    ([3, 1, 2] : List Int) ≠ [] ∧
    (pyMin [3, 1, 2] ∈ ([3, 1, 2] : List Int) ∧
      (∀ q ∈ ([3, 1, 2] : List Int), pyMin [3, 1, 2] ≤ q) ∧
      (∃! p, p ∈ ([3, 1, 2] : List Int) ∧ p = pyMin [3, 1, 2]) ∧
      (elect_leader [3, 1, 2] 1 = true ↔ (1 : Int) = pyMin [3, 1, 2])) :=
  ⟨by decide, c9_leader_election [3, 1, 2] 1 (by decide)⟩

/-- C10.  Settings blob read with an undecodable payload: when the stored
length is in `(0, 65536]` but the payload does not parse as JSON, the
inner decode failure leaves `data` unbound and the final
`return mtime, data` raises (`Except.error`), instead of returning the
empty default; the `(mtime, {})` fallback can only come from a length
outside `(0, 65536]` or from a payload that genuinely decodes to the empty
value. -/
theorem c10_settings_decode_error_raises {J : Type} (emptyJ : J)
    (jsonLoads : List Nat → Option J) (buf : Buf) :
    (0 < shm_read_int buf 8 → shm_read_int buf 8 ≤ 65536 →
      jsonLoads (shm_read_bytes buf 16 (shm_read_int buf 8).toNat) = none →
      read_settings_from_shm emptyJ jsonLoads buf = Except.error ()) ∧
    (∀ m d, read_settings_from_shm emptyJ jsonLoads buf = Except.ok (m, d) → d = emptyJ →
      (shm_read_int buf 8 ≤ 0 ∨ 65536 < shm_read_int buf 8) ∨
        jsonLoads (shm_read_bytes buf 16 (shm_read_int buf 8).toNat) = some emptyJ) := by
  constructor
  · intro h1 h2 h3
    rw [read_settings_from_shm, if_neg (by omega), h3]
  · intro m d hok hde
    rw [read_settings_from_shm] at hok
    by_cases hc : shm_read_int buf 8 > 65536 ∨ shm_read_int buf 8 ≤ 0
    · left
      omega
    · right
      rw [if_neg hc] at hok
      rcases hj : jsonLoads (shm_read_bytes buf 16 (shm_read_int buf 8).toNat) with _ | d2
      · rw [hj] at hok
        exact absurd hok (by simp)
      · rw [hj] at hok
        simp only [Except.ok.injEq, Prod.mk.injEq] at hok
        rw [hok.2, hde]

theorem c10_witness :
    (0 : Int) < shm_read_int (shm_write_int freshBuf 8 5) 8 ∧
    shm_read_int (shm_write_int freshBuf 8 5) 8 ≤ 65536 ∧
    read_settings_from_shm false (fun _ => (none : Option Bool))
      (shm_write_int freshBuf 8 5) = Except.error () := by
  have h8 : shm_read_int (shm_write_int freshBuf 8 5) 8 = 5 :=
    shm_read_int_write_int_self _ _ _ (by norm_num) (by norm_num)
  refine ⟨by rw [h8] ; norm_num, by rw [h8] ; norm_num, ?_⟩
  exact (c10_settings_decode_error_raises false (fun _ => none) _).1
    (by rw [h8] ; norm_num) (by rw [h8] ; norm_num) rfl

theorem c8_witness :
    ∃ os2 h2,
      shm_cleanup (fun _ => (none : Option Nat)) ⟨"x", 4, false⟩ true =
        Except.ok (os2, h2) ∧
      h2.closed = true ∧
      (∀ n, n ≠ (ShmHandle.mk "x" 4 false).name →
        os2 n = (fun _ => (none : Option Nat)) n) ∧
      (true = false → os2 = (fun _ => (none : Option Nat))) ∧
      ((fun _ => (none : Option Nat)) (ShmHandle.mk "x" 4 false).name = none →
        os2 = (fun _ => (none : Option Nat))) ∧
      os2 (ShmHandle.mk "x" 4 false).name =
        (if true = true then none
          else (fun _ => (none : Option Nat)) (ShmHandle.mk "x" 4 false).name) ∧
      shm_cleanup os2 h2 true = Except.ok (os2, h2) :=
  c8_cleanup_total (fun _ => (none : Option Nat)) ⟨"x", 4, false⟩ true

end Gravatar
